import Mathlib

/-!
Verification development for the DAG handler of the data_report_service
repository (`src/handlers/dag_handler.py`, data model in
`src/models/config_models.py`).

Modelling conventions:
* Python strings used as text content (node display names, rendered
  diagram text) are modelled as `List Char`; identifiers, statuses and
  error messages are modelled as `String`.
* Python numeric position/force arithmetic uses floats; here it is
  modelled exactly over `ℚ`.  The only non-rational operation in the
  source, `dist = (dx*dx + dy*dy) ** 0.5` in `_force_layout`, is used
  solely in the guarded expression `dx / dist * 100 / dist`, which over
  the reals equals `100 * dx / (dx*dx + dy*dy)`; the model computes that
  rational value directly, and the guard `dist > 0` is equivalent to
  `0 < dx*dx + dy*dy`.
* Python dicts built by insertion (adjacency, in-degree, node levels) are
  modelled as association lists in insertion order, since the source
  iterates over `dict.items()` and relies on insertion order.
* `random.uniform` in `_force_layout` is modelled by an explicit oracle
  `Nat → ℚ × ℚ` giving the initial position of the i-th node.
* Methods that mutate `node.position` in place and return the same object
  are modelled as functions returning the updated graph value.
-/

namespace DagHandler

/-- Model of `DAGNode` (config_models.py).  The `result` field may be a
string or a dict in Python; no code covered by the claims ever reads it,
so it is collapsed to an optional string. -/
structure DAGNode where
  id : String
  name : List Char
  description : Option (List Char)
  status : Option String
  timestamp : Option String
  result : Option String
  position : Option (ℚ × ℚ)
  deriving DecidableEq, Repr

/-- Model of `DAGEdge` (config_models.py). -/
structure DAGEdge where
  from_node : String
  to_node : String
  label : Option (List Char)
  deriving DecidableEq, Repr

/-- Model of `DAGElement` (config_models.py). -/
structure DAGElement where
  type : String
  title : List Char
  description : Option (List Char)
  nodes : List DAGNode
  edges : List DAGEdge
  layout : Option String
  deriving DecidableEq, Repr

/-- The list of node ids of a node list (`[node.id for node in nodes]`). -/
def nodeIds (nodes : List DAGNode) : List String := nodes.map fun n => n.id

/-- `in_degree[edge.to_node] += 1` on an association-list dict: increment
the value at the first matching key.  On a missing key Python raises
`KeyError`; that situation is unreachable in the verified runs (every
edge endpoint is a node id there), and the model leaves the dict
unchanged. -/
def degIncr : List (String × Int) → String → List (String × Int)
  | [], _ => []
  | (k, v) :: rest, x => if k = x then (k, v + 1) :: rest else (k, v) :: degIncr rest x

/-- `in_degree[neighbor_id] -= 1` on an association-list dict. -/
def updDeg : List (String × Int) → String → List (String × Int)
  | [], _ => []
  | (k, v) :: rest, x => if k = x then (k, v - 1) :: rest else (k, v) :: updDeg rest x

/-- Dict read `in_degree[key]` (as an `Option`). -/
def lookupDeg : List (String × Int) → String → Option Int
  | [], _ => none
  | (k, v) :: rest, x => if k = x then some v else lookupDeg rest x

/-- `adjacency[edge.from_node].append(edge.to_node)` on an
association-list dict of lists. -/
def adjAppend : List (String × List String) → String → String → List (String × List String)
  | [], _, _ => []
  | (k, l) :: rest, x, t => if k = x then (k, l ++ [t]) :: rest else (k, l) :: adjAppend rest x t

/-- Dict read `adjacency[key]`; a missing key (unreachable in the
verified runs) yields `[]`. -/
def lookupAdj : List (String × List String) → String → List String
  | [], _ => []
  | (k, l) :: rest, x => if k = x then l else lookupAdj rest x

/-- The common graph-construction prologue of `_check_acyclic`,
`get_topological_order` and `get_dag_statistics`:

    for node in nodes: adjacency[node.id] = []; in_degree[node.id] = 0
    for edge in edges:
        adjacency[edge.from_node].append(edge.to_node)
        in_degree[edge.to_node] += 1
-/
def buildAdjDeg (nodes : List DAGNode) (edges : List DAGEdge) :
    List (String × List String) × List (String × Int) :=
  edges.foldl
    (fun p e => (adjAppend p.1 e.from_node e.to_node, degIncr p.2 e.to_node))
    (nodes.map fun n => (n.id, ([] : List String)), nodes.map fun n => (n.id, (0 : Int)))

/-- Inner loop of `get_topological_order`'s Kahn iteration:

    for neighbor_id in adjacency[current.id]:
        in_degree[neighbor_id] -= 1
        if in_degree[neighbor_id] == 0:
            neighbor_node = next((n for n in dag_element.nodes if n.id == neighbor_id), None)
            if neighbor_node: queue.append(neighbor_node)
-/
def processNeighbors (nodes : List DAGNode) :
    List String → List DAGNode → List (String × Int) → List DAGNode × List (String × Int)
  | [], q, deg => (q, deg)
  | x :: rest, q, deg =>
    let deg2 := updDeg deg x
    let q2 :=
      if lookupDeg deg2 x = some 0 then
        match nodes.find? fun n => n.id == x with
        | some nn => q ++ [nn]
        | none => q
      else q
    processNeighbors nodes rest q2 deg2

/-- Inner loop of `_check_acyclic`'s Kahn iteration (queue of ids):

    for neighbor in adjacency[current]:
        in_degree[neighbor] -= 1
        if in_degree[neighbor] == 0: queue.append(neighbor)
-/
def processNeighborsId :
    List String → List String → List (String × Int) → List String × List (String × Int)
  | [], q, deg => (q, deg)
  | x :: rest, q, deg =>
    let deg2 := updDeg deg x
    let q2 := if lookupDeg deg2 x = some 0 then q ++ [x] else q
    processNeighborsId rest q2 deg2

/-- Termination measure for the Kahn loops: queue length plus the sum of
the positive parts of the in-degree dict values. -/
def degSum (m : List (String × Int)) : Nat := (m.map fun p => p.2.toNat).sum

@[simp] theorem degSum_nil : degSum [] = 0 := rfl

@[simp] theorem degSum_cons (k : String) (v : Int) (rest : List (String × Int)) :
    degSum ((k, v) :: rest) = v.toNat + degSum rest := rfl

theorem degSum_updDeg_le : ∀ (m : List (String × Int)) (x : String),
    degSum (updDeg m x) ≤ degSum m
  | [], _ => le_refl _
  | (k, v) :: rest, x => by
    by_cases h : k = x
    · simp only [updDeg, if_pos h, degSum_cons]
      have : (v - 1).toNat ≤ v.toNat := by omega
      omega
    · simp only [updDeg, if_neg h, degSum_cons]
      have := degSum_updDeg_le rest x
      omega

theorem degSum_updDeg_lt : ∀ (m : List (String × Int)) (x : String),
    lookupDeg (updDeg m x) x = some 0 → degSum (updDeg m x) < degSum m
  | [], x => by simp [updDeg, lookupDeg]
  | (k, v) :: rest, x => by
    by_cases h : k = x
    · simp only [updDeg, if_pos h, lookupDeg, degSum_cons]
      intro hv
      have : v - 1 = 0 := Option.some.inj hv
      omega
    · simp only [updDeg, if_neg h, lookupDeg, if_neg h, degSum_cons]
      intro hv
      have := degSum_updDeg_lt rest x hv
      omega

theorem processNeighbors_measure (nodes : List DAGNode) :
    ∀ (xs : List String) (q : List DAGNode) (deg : List (String × Int)),
    (processNeighbors nodes xs q deg).1.length + degSum (processNeighbors nodes xs q deg).2
      ≤ q.length + degSum deg
  | [], q, deg => le_refl _
  | x :: rest, q, deg => by
    simp only [processNeighbors]
    by_cases h : lookupDeg (updDeg deg x) x = some 0
    · rw [if_pos h]
      have hlt := degSum_updDeg_lt deg x h
      cases hfind : nodes.find? fun n => n.id == x with
      | some nn =>
        dsimp only
        have := processNeighbors_measure nodes rest (q ++ [nn]) (updDeg deg x)
        simp only [List.length_append, List.length_cons, List.length_nil] at this ⊢
        omega
      | none =>
        dsimp only
        have := processNeighbors_measure nodes rest q (updDeg deg x)
        omega
    · rw [if_neg h]
      have := processNeighbors_measure nodes rest q (updDeg deg x)
      have hle := degSum_updDeg_le deg x
      omega

theorem processNeighborsId_measure :
    ∀ (xs : List String) (q : List String) (deg : List (String × Int)),
    (processNeighborsId xs q deg).1.length + degSum (processNeighborsId xs q deg).2
      ≤ q.length + degSum deg
  | [], q, deg => le_refl _
  | x :: rest, q, deg => by
    simp only [processNeighborsId]
    by_cases h : lookupDeg (updDeg deg x) x = some 0
    · rw [if_pos h]
      have hlt := degSum_updDeg_lt deg x h
      have := processNeighborsId_measure rest (q ++ [x]) (updDeg deg x)
      simp only [List.length_append, List.length_cons, List.length_nil] at this ⊢
      omega
    · rw [if_neg h]
      have := processNeighborsId_measure rest q (updDeg deg x)
      have hle := degSum_updDeg_le deg x
      omega

/-- Outer Kahn loop of `get_topological_order`:

    while queue:
        current = queue.popleft()
        topo_order.append(current)
        ... (processNeighbors) ...
-/
def kahnTopo (nodes : List DAGNode) (adj : String → List String) :
    List DAGNode → List (String × Int) → List DAGNode
  | [], _ => []
  | current :: rest, deg =>
    let p := processNeighbors nodes (adj current.id) rest deg
    current :: kahnTopo nodes adj p.1 p.2
termination_by q deg => q.length + degSum deg
decreasing_by
  have h := processNeighbors_measure nodes (adj current.id) rest deg
  simp only [List.length_cons]
  omega

/-- Outer Kahn loop of `_check_acyclic` (counting processed nodes):

    while queue:
        current = queue.popleft()
        processed_count += 1
        ... (processNeighborsId) ...
-/
def kahnCount (adj : String → List String) :
    List String → List (String × Int) → Nat
  | [], _ => 0
  | current :: rest, deg =>
    let p := processNeighborsId (adj current) rest deg
    kahnCount adj p.1 p.2 + 1
termination_by q deg => q.length + degSum deg
decreasing_by
  have h := processNeighborsId_measure (adj current) rest deg
  simp only [List.length_cons]
  omega

/-- `DAGHandler._check_acyclic(nodes, edges)`. -/
def check_acyclic (nodes : List DAGNode) (edges : List DAGEdge) : Bool :=
  let ad := buildAdjDeg nodes edges
  let queue := (ad.2.filter fun p => p.2 == 0).map fun p => p.1
  kahnCount (lookupAdj ad.1) queue ad.2 == nodes.length

/-- `DAGHandler.get_topological_order(dag_element)`. -/
def get_topological_order (g : DAGElement) : List DAGNode :=
  let ad := buildAdjDeg g.nodes g.edges
  let queue := g.nodes.filter fun n => lookupDeg ad.2 n.id == some 0
  kahnTopo g.nodes (lookupAdj ad.1) queue ad.2

/-! ## Statistics (`get_dag_statistics`) -/

/-- The in-degree dict alone (`for edge in edges: in_degree[edge.to_node] += 1`),
as also built by `_hierarchical_layout` and `generate_execution_order`. -/
def buildInDeg (nodes : List DAGNode) (edges : List DAGEdge) : List (String × Int) :=
  edges.foldl (fun m e => degIncr m e.to_node) (nodes.map fun n => (n.id, (0 : Int)))

/-- The out-degree dict (`for edge in edges: out_degree[edge.from_node] += 1`). -/
def buildOutDeg (nodes : List DAGNode) (edges : List DAGEdge) : List (String × Int) :=
  edges.foldl (fun m e => degIncr m e.from_node) (nodes.map fun n => (n.id, (0 : Int)))

/-- `status_counts[status] = status_counts.get(status, 0) + 1` (a fresh key
is inserted at the end, matching dict insertion order). -/
def bumpCount : List (String × Nat) → String → List (String × Nat)
  | [], s => [(s, 1)]
  | (k, c) :: rest, s => if k = s then (k, c + 1) :: rest else (k, c) :: bumpCount rest s

/-- `node.status or "unknown"`: Python treats both `None` and the empty
string as falsy. -/
def statusOf (n : DAGNode) : String :=
  match n.status with
  | none => "unknown"
  | some s => if s = "" then "unknown" else s

/-- `sum(degree_dict.values())`. -/
def sumVals (m : List (String × Int)) : Int := (m.map fun p => p.2).sum

/-- The statistics record returned by `get_dag_statistics` (Python returns
a dict with exactly these keys; the float-valued entries are modelled
over `ℚ`). -/
structure DAGStats where
  total_nodes : Nat
  total_edges : Nat
  density : ℚ
  start_nodes : List String
  end_nodes : List String
  status_distribution : List (String × Nat)
  avg_in_degree : ℚ
  avg_out_degree : ℚ
  deriving DecidableEq, Repr

/-- `DAGHandler.get_dag_statistics(dag_element)`. -/
def get_dag_statistics (g : DAGElement) : DAGStats :=
  let inDeg := buildInDeg g.nodes g.edges
  let outDeg := buildOutDeg g.nodes g.edges
  let n : Int := g.nodes.length
  { total_nodes := g.nodes.length
    total_edges := g.edges.length
    density := (g.edges.length : ℚ) / ((max 1 (n * (n - 1)) : Int) : ℚ)
    start_nodes := (g.nodes.filter fun node => lookupDeg inDeg node.id == some 0).map fun node => node.id
    end_nodes := (g.nodes.filter fun node => lookupDeg outDeg node.id == some 0).map fun node => node.id
    status_distribution := g.nodes.foldl (fun m node => bumpCount m (statusOf node)) []
    avg_in_degree := if g.nodes = [] then 0 else (sumVals inDeg : ℚ) / (g.nodes.length : ℚ)
    avg_out_degree := if g.nodes = [] then 0 else (sumVals outDeg : ℚ) / (g.nodes.length : ℚ) }

/-! ## Validation (`validate_dag_config`) -/

/-- The edge-validation loop of `validate_dag_config`: the first edge whose
endpoint is not a known node id produces the corresponding error message
(and the method returns immediately). -/
def edgeErrors (ids : List String) : List DAGEdge → Option String
  | [] => none
  | e :: rest =>
    if e.from_node ∉ ids then some ("边引用了不存在的起始节点: " ++ e.from_node)
    else if e.to_node ∉ ids then some ("边引用了不存在的目标节点: " ++ e.to_node)
    else edgeErrors ids rest

/-- `DAGHandler.validate_dag_config(dag_element)`: the pair of the returned
boolean and the contents of `self.validation_errors` after the call (the
method resets the error list on entry and appends at most one message
before each early `return False`). -/
def validate_dag_config (g : DAGElement) : Bool × List String :=
  if g.nodes = [] then (false, ["DAG必须包含至少一个节点"])
  else if ¬ (nodeIds g.nodes).Nodup then (false, ["节点ID必须唯一"])
  else
    match edgeErrors (nodeIds g.nodes) g.edges with
    | some msg => (false, [msg])
    | none =>
      if check_acyclic g.nodes g.edges = true then (true, [])
      else (false, ["DAG不能包含环"])

/-! ## Mermaid rendering (`convert_to_mermaid`, `_escape_mermaid_text`) -/

/-- The `special_chars` list of `_escape_mermaid_text`, in source order. -/
def special_chars : List Char :=
  ['\"', '\'', '\\', '[', ']', '\x7b', '\x7d', '(', ')', '#', '*', '+', '-', '.', '/', ':']

/-- Python `text.replace(pat, rep)` for a single-character pattern. -/
def replace1 (pat : Char) (rep : List Char) : List Char → List Char
  | [] => []
  | a :: rest => if a = pat then rep ++ replace1 pat rep rest else a :: replace1 pat rep rest

/-- `DAGHandler._escape_mermaid_text(text)`: sequentially replace each
special character `c` by `\c` (note that the backslash itself is the
third entry of the list, so backslashes inserted by the first two
replacements are doubled again by the third). -/
def escape_mermaid_text (text : List Char) : List Char :=
  special_chars.foldl (fun acc c => replace1 c ['\\', c] acc) text

/-- `DAGHandler._get_node_status_style(status)` (`if not status` also
catches the empty string). -/
def get_node_status_style (status : Option String) : List Char :=
  match status with
  | none => []
  | some s =>
    if s = "" then []
    else if s = "completed" then ":::success".data
    else if s = "failed" then ":::danger".data
    else if s = "running" then ":::warning".data
    else if s = "pending" then ":::info".data
    else ":::info".data

/-- One node directive line:
`f'    {node.id}["{node_content}"]{status_style}'` where the content is
the escaped name plus, for a truthy description, `f"\\n\\n*{...}*"`
(the description is appended unescaped). -/
def mermaidNodeLine (node : DAGNode) : List Char :=
  let content := escape_mermaid_text node.name ++
    (match node.description with
     | some d => if d = [] then [] else "\\n\\n*".data ++ d ++ ['*']
     | none => [])
  "    ".data ++ node.id.data ++ ('[' :: '\"' :: content) ++ ('\"' :: ']' :: get_node_status_style node.status)

/-- One edge directive line:
`f'    {edge.from_node} -->{arrow_text} {edge.to_node}'` with
`arrow_text = f'|{edge.label}|' if edge.label else ''`. -/
def mermaidEdgeLine (e : DAGEdge) : List Char :=
  let arrow := match e.label with
    | some l => if l = [] then [] else '|' :: (l ++ ['|'])
    | none => []
  "    ".data ++ e.from_node.data ++ " -->".data ++ arrow ++ (' ' :: e.to_node.data)

/-- Python `'\n'.join(lines)`. -/
def joinNL : List (List Char) → List Char
  | [] => []
  | [l] => l
  | l :: ls => l ++ '\n' :: joinNL ls

/-- `DAGHandler.convert_to_mermaid(dag_element)`. -/
def convert_to_mermaid (g : DAGElement) : List Char :=
  let header := if g.nodes.length ≤ 10 ∧ g.edges.length ≤ 15 then "flowchart TD".data else "graph TD".data
  joinNL (header :: (g.nodes.map mermaidNodeLine ++ g.edges.map mermaidEdgeLine))

/-! ## Layouts (`optimize_dag_layout` and the three policies) -/

/-- Dict read `node_levels[key]` (as an `Option`). -/
def lookupLevel : List (String × Nat) → String → Option Nat
  | [], _ => none
  | (k, v) :: rest, x => if k = x then some v else lookupLevel rest x

/-- Python `list.index(x)`: index of the first occurrence (callers only
invoke it on members). -/
def posIn : List String → String → Nat
  | [], _ => 0
  | x :: rest, v => if x = v then 0 else posIn rest v + 1

/-- Number of nodes whose id is not yet visited (part of the BFS
termination measure). -/
def unvisCount (nodes : List DAGNode) (visited : List String) : Nat :=
  (nodes.filter fun n => !(visited.contains n.id)).length

/-- The children enqueued while visiting `cid` in `_hierarchical_layout`:

    for edge in edges:
        if edge.from_node == current_node.id:
            child_node = next((n for n in nodes if n.id == edge.to_node), None)
            if child_node and child_node.id not in visited: queue.append(...)

(`visited` already contains `cid` at that point).  Children carry a
membership proof so that the BFS loop terminates on every input, as the
source loop does. -/
def bfsChildren (nodes : List DAGNode) (edges : List DAGEdge) (visited : List String) (cid : String) :
    List {n : DAGNode // n ∈ nodes} :=
  (edges.filter fun e => e.from_node == cid).filterMap fun e =>
    match h : nodes.find? fun n => n.id == e.to_node with
    | some ch => if ch.id ∈ visited then none else some ⟨ch, List.mem_of_find?_eq_some h⟩
    | none => none

theorem length_filter_mono {α : Type} (l : List α) (p q : α → Bool)
    (himp : ∀ x, q x = true → p x = true) :
    (l.filter q).length ≤ (l.filter p).length := by
  induction l with
  | nil => exact le_refl _
  | cons b rest ih =>
    by_cases hq : q b = true
    · simp [List.filter_cons, hq, himp b hq]
      omega
    · have hq2 : q b = false := by revert hq; cases q b <;> simp
      by_cases hp : p b = true
      · simp [List.filter_cons, hq2, hp]
        omega
      · have hp2 : p b = false := by revert hp; cases p b <;> simp
        simp [List.filter_cons, hq2, hp2]
        exact ih

theorem length_filter_lt {α : Type} (l : List α) (p q : α → Bool)
    (himp : ∀ x, q x = true → p x = true)
    (a : α) (ha : a ∈ l) (hpa : p a = true) (hqa : q a = false) :
    (l.filter q).length < (l.filter p).length := by
  induction l with
  | nil => cases ha
  | cons b rest ih =>
    by_cases hab : b = a
    · subst hab
      simp [List.filter_cons, hpa, hqa]
      have := length_filter_mono rest p q himp
      omega
    · have ha2 : a ∈ rest := by
        cases ha with
        | head => exact absurd rfl hab
        | tail _ h => exact h
      by_cases hq : q b = true
      · simp [List.filter_cons, hq, himp b hq]
        exact ih ha2
      · have hq2 : q b = false := by revert hq; cases q b <;> simp
        by_cases hp : p b = true
        · simp [List.filter_cons, hq2, hp]
          have := ih ha2
          omega
        · have hp2 : p b = false := by revert hp; cases p b <;> simp
          simp [List.filter_cons, hq2, hp2]
          exact ih ha2

theorem not_contains_iff (v : List String) (s : String) : (!(v.contains s)) = true ↔ s ∉ v := by
  simp [List.contains, List.elem_iff]

theorem unvisCount_visit (nodes : List DAGNode) (visited : List String)
    (c : DAGNode) (hc : c ∈ nodes) (hcv : ¬ c.id ∈ visited) :
    unvisCount nodes (visited ++ [c.id]) < unvisCount nodes visited := by
  apply length_filter_lt nodes (fun n => !(visited.contains n.id))
    (fun n => !((visited ++ [c.id]).contains n.id)) ?himp c hc ?hpa ?hqa
  case himp =>
    intro x hx
    rw [not_contains_iff] at hx ⊢
    intro hm
    exact hx (List.mem_append_left _ hm)
  case hpa => rw [not_contains_iff]; exact hcv
  case hqa =>
    have hm : c.id ∈ visited ++ [c.id] := by simp
    simp only [Bool.not_eq_false']
    rw [show ((visited ++ [c.id]).contains c.id = true) ↔ c.id ∈ visited ++ [c.id] from by
      simp [List.contains, List.elem_iff]]
    exact hm

theorem bfsChildren_length_le (nodes : List DAGNode) (edges : List DAGEdge)
    (visited : List String) (cid : String) :
    (bfsChildren nodes edges visited cid).length ≤ edges.length :=
  le_trans (List.length_filterMap_le _ _) (List.length_filter_le _ _)

/-- The BFS level-assignment loop of `_hierarchical_layout`; `levels`
accumulates `node_levels` in insertion (first-visit) order. -/
def bfsLevels (nodes : List DAGNode) (edges : List DAGEdge) :
    List ({n : DAGNode // n ∈ nodes} × Nat) → List String → List (String × Nat) → List (String × Nat)
  | [], _, levels => levels
  | (c, lv) :: rest, visited, levels =>
    if c.val.id ∈ visited then bfsLevels nodes edges rest visited levels
    else
      bfsLevels nodes edges
        (rest ++ (bfsChildren nodes edges (visited ++ [c.val.id]) c.val.id).map fun ch => (ch, lv + 1))
        (visited ++ [c.val.id])
        (levels ++ [(c.val.id, lv)])
termination_by q visited _ => q.length + unvisCount nodes visited * (edges.length + 1)
decreasing_by
  · simp only [List.length_cons]
    omega
  · simp only [List.length_cons, List.length_append, List.length_map]
    have h1 := unvisCount_visit nodes visited c.val c.property (by assumption)
    have h2 : unvisCount nodes (visited ++ [c.val.id]) + 1 ≤ unvisCount nodes visited := h1
    have h3 : (unvisCount nodes (visited ++ [c.val.id]) + 1) * (edges.length + 1)
        ≤ unvisCount nodes visited * (edges.length + 1) :=
      Nat.mul_le_mul_right _ h2
    have h4 := bfsChildren_length_le nodes edges (visited ++ [c.val.id]) c.val.id
    rw [Nat.add_mul] at h3
    omega

/-- `DAGHandler._hierarchical_layout(dag_element)`.  Positions use exact
rational arithmetic: `x = (index - len(level_nodes)/2) * 150`,
`y = level * 100`. -/
def hierarchical_layout (g : DAGElement) : DAGElement :=
  let inDeg := buildInDeg g.nodes g.edges
  let startQ := (g.nodes.attach.filter fun n => lookupDeg inDeg n.val.id == some 0).map fun n => (n, 0)
  let levels := bfsLevels g.nodes g.edges startQ [] []
  { g with nodes := g.nodes.map fun n =>
      match lookupLevel levels n.id with
      | some lv =>
        let lnodes := (levels.filter fun p => p.2 == lv).map fun p => p.1
        let i := posIn lnodes n.id
        { n with position := some (((i : ℚ) - (lnodes.length : ℚ) / 2) * 150, (lv : ℚ) * 100) }
      | none => n }

/-- Python `x % 1` for a nonnegative float: the fractional part. -/
def fmod1 (q : ℚ) : ℚ := q - Int.floor q

/-- The position-assignment loop of `_circular_layout` (`i` is the
`enumerate` index).  Float literals (`3.14159`, `1.2`, `0.3`, `0.1`,
`0.6`, `0.4`, `0.5`) become exact rationals. -/
def assignCirc (radius : ℚ) (n : Nat) : Nat → List DAGNode → List DAGNode
  | _, [] => []
  | i, node :: rest =>
    let angle : ℚ := 2 * (314159 / 100000) * i / n
    let x := radius * (12/10) * (1 + (3/10) * n * (1/10)) * ((6/10) + (4/10) * fmod1 angle)
    let y := radius * (12/10) * (1 + (3/10) * n * (1/10)) * ((6/10) + (4/10) * fmod1 (angle + 1/2))
    { node with position := some (x, y) } :: assignCirc radius n (i + 1) rest

/-- `DAGHandler._circular_layout(dag_element)` (`radius = max(200, n * 50)`). -/
def circular_layout (g : DAGElement) : DAGElement :=
  let n := g.nodes.length
  { g with nodes := assignCirc (max 200 ((n : ℚ) * 50)) n 0 g.nodes }

/-- `node.position["x"] / node.position["y"]` reads during the force
iteration (every node's position has been initialised by then). -/
def getPos (n : DAGNode) : ℚ × ℚ := n.position.getD (0, 0)

/-- The guarded pairwise repulsion of `_force_layout`:

    dist = (dx*dx + dy*dy) ** 0.5
    if dist > 0:
        force_x += dx / dist * 100 / dist
        force_y += dy / dist * 100 / dist

Over the reals `dx / dist * 100 / dist = 100 * dx / (dx*dx + dy*dy)` and
`dist > 0 ↔ 0 < dx*dx + dy*dy`, so the model computes the rational value
directly. -/
def repulse (p q : ℚ × ℚ) : ℚ × ℚ :=
  let dx := p.1 - q.1
  let dy := p.2 - q.2
  let d2 := dx * dx + dy * dy
  if 0 < d2 then (dx * 100 / d2, dy * 100 / d2) else (0, 0)

/-- The force accumulated on `me` from all other nodes (`(0, 0)` start;
pairs with equal ids are skipped by `if node.id != other_node.id`). -/
def forceOn (ns : List DAGNode) (me : DAGNode) : ℚ × ℚ :=
  ns.foldl (fun f o =>
    if me.id == o.id then f
    else
      let r := repulse (getPos me) (getPos o)
      (f.1 + r.1, f.2 + r.2)) (0, 0)

/-- In-place update of the i-th node:
`node.position["x"] += force_x * 0.1` etc. -/
def stepNode (ns : List DAGNode) (i : Nat) : List DAGNode :=
  match ns[i]? with
  | none => ns
  | some me =>
    let f := forceOn ns me
    ns.set i { me with position := some ((getPos me).1 + f.1 * (1/10), (getPos me).2 + f.2 * (1/10)) }

/-- One pass of `for node in dag_element.nodes: ...` (nodes are updated
sequentially, later nodes seeing earlier updates). -/
def forcePass (ns : List DAGNode) : List DAGNode :=
  (List.range ns.length).foldl stepNode ns

/-- `for _ in range(5)`: the fixed iteration loop. -/
def forceIter : Nat → List DAGNode → List DAGNode
  | 0, ns => ns
  | k + 1, ns => forceIter k (forcePass ns)

/-- The random initialisation
`node.position = {"x": random.uniform(-300, 300), "y": random.uniform(-200, 200)}`,
with the oracle `rnd` supplying the value drawn for the i-th node. -/
def assignInit (rnd : Nat → ℚ × ℚ) : Nat → List DAGNode → List DAGNode
  | _, [] => []
  | i, n :: rest => { n with position := some (rnd i) } :: assignInit rnd (i + 1) rest

/-- `DAGHandler._force_layout(dag_element)`. -/
def force_layout (rnd : Nat → ℚ × ℚ) (g : DAGElement) : DAGElement :=
  { g with nodes := forceIter 5 (assignInit rnd 0 g.nodes) }

/-- `DAGHandler.optimize_dag_layout(dag_element, layout_type)`; an unknown
layout name returns the element unchanged. -/
def optimize_dag_layout (rnd : Nat → ℚ × ℚ) (g : DAGElement) (layout_type : String) : DAGElement :=
  if layout_type = "hierarchical" then hierarchical_layout g
  else if layout_type = "circular" then circular_layout g
  else if layout_type = "force" then force_layout rnd g
  else g

/-! ## Well-formed graphs and specification-level degree counts -/

/-- Structural well-formedness: the graph notion of the specification —
pairwise-distinct node ids and edge endpoints referencing known nodes
(exactly the conditions `validate_dag_config` checks before the cycle
test; on inputs violating them the Python dict accesses would raise). -/
structure WFG (nodes : List DAGNode) (edges : List DAGEdge) : Prop where
  nodup : (nodeIds nodes).Nodup
  from_mem : ∀ e ∈ edges, e.from_node ∈ nodeIds nodes
  to_mem : ∀ e ∈ edges, e.to_node ∈ nodeIds nodes

/-- Number of edges into `v`. -/
def inCnt (edges : List DAGEdge) (v : String) : Int :=
  ((edges.filter fun e => e.to_node == v).length : Int)

/-- Number of edges into `v` whose source is in `E`. -/
def fromCnt (edges : List DAGEdge) (E : List String) (v : String) : Int :=
  ((edges.filter fun e => e.to_node == v && E.contains e.from_node).length : Int)

/-- Remaining in-degree of `v` after the nodes listed in `E` have been
emitted by the Kahn loop. -/
def remDeg (edges : List DAGEdge) (E : List String) (v : String) : Int :=
  inCnt edges v - fromCnt edges E v

/-- Successor ids of `u` in edge-list order (the value `adjacency[u]`
takes after graph construction). -/
def outAdj (edges : List DAGEdge) (u : String) : List String :=
  (edges.filter fun e => e.from_node == u).map fun e => e.to_node

/-- Canonical in-degree-style dict over the node list. -/
def mapOfI (nodes : List DAGNode) (f : String → Int) : List (String × Int) :=
  nodes.map fun n => (n.id, f n.id)

/-- Canonical adjacency dict over the node list. -/
def mapOfA (nodes : List DAGNode) (g : String → List String) : List (String × List String) :=
  nodes.map fun n => (n.id, g n.id)

theorem mapOfI_congr (nodes : List DAGNode) (f g : String → Int)
    (h : ∀ v ∈ nodeIds nodes, f v = g v) : mapOfI nodes f = mapOfI nodes g := by
  induction nodes with
  | nil => rfl
  | cons n rest ih =>
    simp only [mapOfI, List.map_cons, List.cons.injEq]
    constructor
    · rw [h n.id (by simp [nodeIds])]
    · exact ih fun v hv => h v (by simp [nodeIds] at hv ⊢; exact Or.inr hv)

theorem mapOfA_congr (nodes : List DAGNode) (f g : String → List String)
    (h : ∀ v ∈ nodeIds nodes, f v = g v) : mapOfA nodes f = mapOfA nodes g := by
  induction nodes with
  | nil => rfl
  | cons n rest ih =>
    simp only [mapOfA, List.map_cons, List.cons.injEq]
    constructor
    · rw [h n.id (by simp [nodeIds])]
    · exact ih fun v hv => h v (by simp [nodeIds] at hv ⊢; exact Or.inr hv)

theorem lookupDeg_mapOfI_mem (nodes : List DAGNode) (f : String → Int) (x : String)
    (hx : x ∈ nodeIds nodes) : lookupDeg (mapOfI nodes f) x = some (f x) := by
  induction nodes with
  | nil => simp [nodeIds] at hx
  | cons n rest ih =>
    simp only [mapOfI, List.map_cons, lookupDeg]
    by_cases h : n.id = x
    · rw [if_pos h, h]
    · rw [if_neg h]
      simp only [nodeIds, List.map_cons, List.mem_cons] at hx
      exact ih (hx.resolve_left fun hh => h hh.symm)

theorem lookupDeg_mapOfI_not_mem (nodes : List DAGNode) (f : String → Int) (x : String)
    (hx : x ∉ nodeIds nodes) : lookupDeg (mapOfI nodes f) x = none := by
  induction nodes with
  | nil => rfl
  | cons n rest ih =>
    simp only [nodeIds, List.map_cons, List.mem_cons, not_or] at hx
    simp only [mapOfI, List.map_cons, lookupDeg]
    rw [if_neg fun hh => hx.1 hh.symm]
    exact ih hx.2

theorem lookupAdj_mapOfA_mem (nodes : List DAGNode) (g : String → List String) (x : String)
    (hx : x ∈ nodeIds nodes) : lookupAdj (mapOfA nodes g) x = g x := by
  induction nodes with
  | nil => simp [nodeIds] at hx
  | cons n rest ih =>
    simp only [mapOfA, List.map_cons, lookupAdj]
    by_cases h : n.id = x
    · rw [if_pos h, h]
    · rw [if_neg h]
      simp only [nodeIds, List.map_cons, List.mem_cons] at hx
      exact ih (hx.resolve_left fun hh => h hh.symm)

theorem updDeg_mapOfI (nodes : List DAGNode) (hnd : (nodeIds nodes).Nodup)
    (f : String → Int) (x : String) :
    updDeg (mapOfI nodes f) x = mapOfI nodes fun v => if v = x then f v - 1 else f v := by
  induction nodes with
  | nil => rfl
  | cons n rest ih =>
    simp only [nodeIds, List.map_cons, List.nodup_cons] at hnd
    simp only [mapOfI, List.map_cons, updDeg]
    by_cases h : n.id = x
    · rw [if_pos h]
      simp only [List.cons.injEq]
      refine ⟨by rw [if_pos h], ?_⟩
      have heq : (mapOfI rest fun v => if v = x then f v - 1 else f v) = mapOfI rest f :=
        mapOfI_congr rest _ _ fun v hv =>
          if_neg fun hvx => hnd.1 (by rw [h, ← hvx]; exact hv)
      exact heq.symm
    · rw [if_neg h]
      simp only [List.cons.injEq]
      exact ⟨by rw [if_neg h], ih hnd.2⟩

theorem degIncr_mapOfI (nodes : List DAGNode) (hnd : (nodeIds nodes).Nodup)
    (f : String → Int) (x : String) :
    degIncr (mapOfI nodes f) x = mapOfI nodes fun v => if v = x then f v + 1 else f v := by
  induction nodes with
  | nil => rfl
  | cons n rest ih =>
    simp only [nodeIds, List.map_cons, List.nodup_cons] at hnd
    simp only [mapOfI, List.map_cons, degIncr]
    by_cases h : n.id = x
    · rw [if_pos h]
      simp only [List.cons.injEq]
      refine ⟨by rw [if_pos h], ?_⟩
      have heq : (mapOfI rest fun v => if v = x then f v + 1 else f v) = mapOfI rest f :=
        mapOfI_congr rest _ _ fun v hv =>
          if_neg fun hvx => hnd.1 (by rw [h, ← hvx]; exact hv)
      exact heq.symm
    · rw [if_neg h]
      simp only [List.cons.injEq]
      exact ⟨by rw [if_neg h], ih hnd.2⟩

theorem adjAppend_mapOfA (nodes : List DAGNode) (hnd : (nodeIds nodes).Nodup)
    (g : String → List String) (x t : String) :
    adjAppend (mapOfA nodes g) x t = mapOfA nodes fun v => if v = x then g v ++ [t] else g v := by
  induction nodes with
  | nil => rfl
  | cons n rest ih =>
    simp only [nodeIds, List.map_cons, List.nodup_cons] at hnd
    simp only [mapOfA, List.map_cons, adjAppend]
    by_cases h : n.id = x
    · rw [if_pos h]
      simp only [List.cons.injEq]
      refine ⟨by rw [if_pos h], ?_⟩
      have heq : (mapOfA rest fun v => if v = x then g v ++ [t] else g v) = mapOfA rest g :=
        mapOfA_congr rest _ _ fun v hv =>
          if_neg fun hvx => hnd.1 (by rw [h, ← hvx]; exact hv)
      exact heq.symm
    · rw [if_neg h]
      simp only [List.cons.injEq]
      exact ⟨by rw [if_neg h], ih hnd.2⟩

theorem buildInDeg_canon (nodes : List DAGNode) (hnd : (nodeIds nodes).Nodup)
    (edges : List DAGEdge) :
    buildInDeg nodes edges = mapOfI nodes (inCnt edges) := by
  induction edges using List.reverseRecOn with
  | nil =>
    show (nodes.map fun n => (n.id, (0 : Int))) = mapOfI nodes (inCnt [])
    exact mapOfI_congr nodes (fun _ => 0) (inCnt []) fun v _ => rfl
  | append_singleton es e ih =>
    have hstep : buildInDeg nodes (es ++ [e]) = degIncr (buildInDeg nodes es) e.to_node := by
      simp [buildInDeg, List.foldl_append]
    rw [hstep, ih, degIncr_mapOfI nodes hnd]
    apply mapOfI_congr
    intro v _
    by_cases h : v = e.to_node
    · rw [if_pos h]
      simp [inCnt, List.filter_append, h]
    · rw [if_neg h]
      have : (e.to_node == v) = false := by
        simp only [beq_eq_false_iff_ne, ne_eq]
        exact fun hh => h hh.symm
      simp [inCnt, List.filter_append, this]

theorem buildOutDeg_canon (nodes : List DAGNode) (hnd : (nodeIds nodes).Nodup)
    (edges : List DAGEdge) :
    buildOutDeg nodes edges =
      mapOfI nodes fun v => ((edges.filter fun e => e.from_node == v).length : Int) := by
  induction edges using List.reverseRecOn with
  | nil =>
    show (nodes.map fun n => (n.id, (0 : Int))) =
      mapOfI nodes fun v => ((List.filter (fun e => e.from_node == v) []).length : Int)
    exact mapOfI_congr nodes (fun _ => 0) _ fun v _ => rfl
  | append_singleton es e ih =>
    have hstep : buildOutDeg nodes (es ++ [e]) = degIncr (buildOutDeg nodes es) e.from_node := by
      simp [buildOutDeg, List.foldl_append]
    rw [hstep, ih, degIncr_mapOfI nodes hnd]
    apply mapOfI_congr
    intro v _
    by_cases h : v = e.from_node
    · rw [if_pos h]
      simp [List.filter_append, h]
    · rw [if_neg h]
      have : (e.from_node == v) = false := by
        simp only [beq_eq_false_iff_ne, ne_eq]
        exact fun hh => h hh.symm
      simp [List.filter_append, this]

theorem buildAdjDeg_canon (nodes : List DAGNode) (hnd : (nodeIds nodes).Nodup)
    (edges : List DAGEdge) :
    buildAdjDeg nodes edges = (mapOfA nodes (outAdj edges), mapOfI nodes (inCnt edges)) := by
  induction edges using List.reverseRecOn with
  | nil =>
    show ((nodes.map fun n => (n.id, ([] : List String))), nodes.map fun n => (n.id, (0 : Int)))
      = (mapOfA nodes (outAdj []), mapOfI nodes (inCnt []))
    refine Prod.ext ?_ ?_
    · exact mapOfA_congr nodes (fun _ => []) (outAdj []) fun v _ => rfl
    · exact mapOfI_congr nodes (fun _ => 0) (inCnt []) fun v _ => rfl
  | append_singleton es e ih =>
    have hstep : buildAdjDeg nodes (es ++ [e]) =
        (adjAppend (buildAdjDeg nodes es).1 e.from_node e.to_node,
         degIncr (buildAdjDeg nodes es).2 e.to_node) := by
      simp [buildAdjDeg, List.foldl_append]
    rw [hstep, ih]
    refine Prod.ext ?_ ?_
    · show adjAppend (mapOfA nodes (outAdj es)) e.from_node e.to_node = mapOfA nodes (outAdj (es ++ [e]))
      rw [adjAppend_mapOfA nodes hnd]
      apply mapOfA_congr
      intro v _
      by_cases h : v = e.from_node
      · rw [if_pos h]
        simp [outAdj, List.filter_append, h]
      · rw [if_neg h]
        have : (e.from_node == v) = false := by
          simp only [beq_eq_false_iff_ne, ne_eq]
          exact fun hh => h hh.symm
        simp [outAdj, List.filter_append, this]
    · show degIncr (mapOfI nodes (inCnt es)) e.to_node = mapOfI nodes (inCnt (es ++ [e]))
      rw [degIncr_mapOfI nodes hnd]
      apply mapOfI_congr
      intro v _
      by_cases h : v = e.to_node
      · rw [if_pos h]
        simp [inCnt, List.filter_append, h]
      · rw [if_neg h]
        have : (e.to_node == v) = false := by
          simp only [beq_eq_false_iff_ne, ne_eq]
          exact fun hh => h hh.symm
        simp [inCnt, List.filter_append, this]

/-! ### Arithmetic of the remaining in-degree -/

theorem fromCnt_nil_emitted (edges : List DAGEdge) (v : String) :
    fromCnt edges [] v = 0 := by
  simp [fromCnt]

theorem remDeg_nil_emitted (edges : List DAGEdge) (v : String) :
    remDeg edges [] v = inCnt edges v := by
  simp [remDeg, fromCnt_nil_emitted]

theorem remDeg_nonneg (edges : List DAGEdge) (E : List String) (v : String) :
    0 ≤ remDeg edges E v := by
  have := length_filter_mono edges (fun e => e.to_node == v)
    (fun e => e.to_node == v && E.contains e.from_node)
    (fun e he => by
      rw [Bool.and_eq_true] at he
      exact he.1)
  simp only [remDeg, inCnt, fromCnt, sub_nonneg]
  exact_mod_cast this

theorem remDeg_cons (e : DAGEdge) (rest : List DAGEdge) (E : List String) (v : String) :
    remDeg (e :: rest) E v =
      remDeg rest E v + (if e.to_node = v ∧ e.from_node ∉ E then 1 else 0) := by
  simp only [remDeg, inCnt, fromCnt, List.filter_cons]
  by_cases ht : e.to_node = v
  · by_cases hf : e.from_node ∈ E
    · have hc : E.contains e.from_node = true := by
        simp [List.contains, List.elem_iff, hf]
      simp [ht, hc, hf]
    · have hc : E.contains e.from_node = false := by
        rw [← Bool.not_eq_true, List.contains, List.elem_iff]
        exact hf
      simp [ht, hc, hf]
      omega
  · have ht2 : (e.to_node == v) = false := by
      simp only [beq_eq_false_iff_ne, ne_eq]
      exact ht
    simp [ht2, ht]

theorem remDeg_eq_zero_iff (edges : List DAGEdge) (E : List String) (v : String) :
    remDeg edges E v = 0 ↔ ∀ e ∈ edges, e.to_node = v → e.from_node ∈ E := by
  induction edges with
  | nil => simp [remDeg, inCnt, fromCnt]
  | cons e rest ih =>
    rw [remDeg_cons]
    have hnn := remDeg_nonneg rest E v
    by_cases h : e.to_node = v ∧ e.from_node ∉ E
    · rw [if_pos h]
      constructor
      · intro hz
        omega
      · intro hall
        exact absurd (hall e (by simp) h.1) h.2
    · rw [if_neg h]
      simp only [add_zero, ih]
      constructor
      · intro hall e2 he2 ht
        rcases List.mem_cons.mp he2 with rfl | hmem
        · by_contra hfe
          exact h ⟨ht, hfe⟩
        · exact hall e2 hmem ht
      · intro hall e2 he2 ht
        exact hall e2 (List.mem_cons_of_mem _ he2) ht

theorem contains_append_single (E : List String) (c s : String) :
    (E ++ [c]).contains s = (E.contains s || s == c) := by
  rw [Bool.eq_iff_iff]
  simp [List.contains, List.elem_iff]

theorem fromCnt_append_single (edges : List DAGEdge) (E : List String) (c v : String)
    (hc : c ∉ E) :
    fromCnt edges (E ++ [c]) v =
      fromCnt edges E v + ((edges.filter fun e => e.from_node == c && e.to_node == v).length : Int) := by
  induction edges with
  | nil => simp [fromCnt]
  | cons e rest ih =>
    simp only [fromCnt, contains_append_single, List.filter_cons] at ih ⊢
    by_cases ht : (e.to_node == v) = true
    · by_cases hfc : (e.from_node == c) = true
      · have hfE : E.contains e.from_node = false := by
          rw [← Bool.not_eq_true, List.contains, List.elem_iff]
          rw [beq_iff_eq] at hfc
          rw [hfc]
          exact hc
        simp only [ht, hfc, hfE, Bool.false_or, Bool.true_and, Bool.and_true, Bool.and_false,
          if_true, if_pos rfl, if_neg (by simp : ¬ (false = true)), List.length_cons]
        push_cast at ih ⊢
        omega
      · have hfc2 : (e.from_node == c) = false := by simpa using hfc
        simp only [ht, hfc2, Bool.or_false, Bool.true_and, Bool.and_false,
          if_neg (by simp : ¬ (false = true))]
        cases hE : E.contains e.from_node
        · simp only [if_neg (by simp : ¬ (false = true))]
          exact ih
        · simp only [Bool.false_and, Bool.true_or, if_true, if_pos rfl,
            if_neg (by simp : ¬ (false = true)), List.length_cons]
          push_cast at ih ⊢
          omega
    · have ht2 : (e.to_node == v) = false := by simpa using ht
      simp only [ht2, Bool.false_and, Bool.and_false,
        if_neg (by simp : ¬ (false = true))]
      exact ih

theorem outAdj_count (edges : List DAGEdge) (c v : String) :
    (outAdj edges c).count v = (edges.filter fun e => e.from_node == c && e.to_node == v).length := by
  induction edges with
  | nil => rfl
  | cons e rest ih =>
    simp only [outAdj, List.filter_cons] at ih ⊢
    by_cases hf : (e.from_node == c) = true
    · simp only [hf, Bool.true_and, if_true, eq_self_iff_true, if_pos rfl, List.map_cons,
        List.count_cons]
      by_cases ht : (e.to_node == v) = true
      · simp only [ht, if_true, eq_self_iff_true, if_pos rfl, List.length_cons, ih]
      · have ht2 : (e.to_node == v) = false := by simpa using ht
        simp only [ht2, if_neg (by simp : ¬ (false = true)), add_zero, ih]
    · have hf2 : (e.from_node == c) = false := by simpa using hf
      simp only [hf2, Bool.false_and, if_neg (by simp : ¬ (false = true))]
      exact ih

theorem remDeg_append_single (edges : List DAGEdge) (E : List String) (c v : String)
    (hc : c ∉ E) :
    remDeg edges (E ++ [c]) v = remDeg edges E v - ((outAdj edges c).count v : Int) := by
  rw [remDeg, remDeg, fromCnt_append_single edges E c v hc, outAdj_count]
  ring

/-! ### Positions in an id list (`list.index`) -/

theorem posIn_append_of_mem (E l : List String) (v : String) (hv : v ∈ E) :
    posIn (E ++ l) v = posIn E v := by
  induction E with
  | nil => cases hv
  | cons x rest ih =>
    simp only [List.cons_append, posIn]
    by_cases h : x = v
    · rw [if_pos h, if_pos h]
    · rw [if_neg h, if_neg h]
      rcases List.mem_cons.mp hv with rfl | hmem
      · exact absurd rfl h
      · have h2 := ih hmem
        simp only [List.append_eq] at h2 ⊢
        omega

theorem posIn_append_of_not_mem (E l : List String) (v : String) (hv : v ∉ E) :
    posIn (E ++ l) v = E.length + posIn l v := by
  induction E with
  | nil => simp [posIn]
  | cons x rest ih =>
    simp only [List.cons_append, posIn, List.length_cons]
    have hx : x ≠ v := fun h => hv (by simp [h])
    rw [if_neg hx]
    have h2 := ih fun h => hv (List.mem_cons_of_mem _ h)
    simp only [List.append_eq] at h2 ⊢
    omega

theorem posIn_lt_length (E : List String) (v : String) (hv : v ∈ E) :
    posIn E v < E.length := by
  induction E with
  | nil => cases hv
  | cons x rest ih =>
    simp only [posIn, List.length_cons]
    by_cases h : x = v
    · rw [if_pos h]
      omega
    · rw [if_neg h]
      rcases List.mem_cons.mp hv with rfl | hmem
      · exact absurd rfl h
      · have h2 := ih hmem
        simp only [List.append_eq] at h2 ⊢
        omega

/-! ### Unfolding equations for the Kahn loops -/

theorem kahnTopo_nil (nodes : List DAGNode) (adj : String → List String)
    (deg : List (String × Int)) : kahnTopo nodes adj [] deg = [] := by
  rw [kahnTopo]

theorem kahnTopo_cons (nodes : List DAGNode) (adj : String → List String)
    (c : DAGNode) (rest : List DAGNode) (deg : List (String × Int)) :
    kahnTopo nodes adj (c :: rest) deg =
      c :: kahnTopo nodes adj (processNeighbors nodes (adj c.id) rest deg).1
        (processNeighbors nodes (adj c.id) rest deg).2 := by
  rw [kahnTopo]

theorem kahnCount_nil (adj : String → List String) (deg : List (String × Int)) :
    kahnCount adj [] deg = 0 := by
  rw [kahnCount]

theorem kahnCount_cons (adj : String → List String) (c : String) (rest : List String)
    (deg : List (String × Int)) :
    kahnCount adj (c :: rest) deg =
      kahnCount adj (processNeighborsId (adj c) rest deg).1
        (processNeighborsId (adj c) rest deg).2 + 1 := by
  rw [kahnCount]

/-! ### Specification of the inner Kahn loop -/

/-- Pointwise decrement, describing how one `in_degree[x] -= 1` changes
the value function of the canonical in-degree dict. -/
def decBy (f : String → Int) (x : String) : String → Int :=
  fun v => if v = x then f v - 1 else f v

/-- The nodes appended to the queue while the inner Kahn loop of
`get_topological_order` walks the neighbor list `xs`, when the in-degree
dict holds value `f v` at node id `v`: a node is appended at the first
moment its value reaches exactly 0. -/
def appendedNodes (nodes : List DAGNode) : List String → (String → Int) → List DAGNode
  | [], _ => []
  | x :: rest, f =>
    (if x ∈ nodeIds nodes ∧ f x = 1 then (nodes.find? fun n => n.id == x).toList else [])
      ++ appendedNodes nodes rest (decBy f x)

theorem find?_id_eq_some (nodes : List DAGNode) (x : String) (hx : x ∈ nodeIds nodes) :
    ∃ nn, (nodes.find? fun n => n.id == x) = some nn ∧ nn ∈ nodes ∧ nn.id = x := by
  simp only [nodeIds, List.mem_map] at hx
  obtain ⟨n, hn, hid⟩ := hx
  have hsome : ((nodes.find? fun n => n.id == x)).isSome = true := by
    rw [List.find?_isSome]
    exact ⟨n, hn, by simp [hid]⟩
  obtain ⟨nn, hnn⟩ := Option.isSome_iff_exists.mp hsome
  refine ⟨nn, hnn, List.mem_of_find?_eq_some hnn, ?_⟩
  have := List.find?_some hnn
  simpa using this

theorem processNeighbors_spec (nodes : List DAGNode) (hnd : (nodeIds nodes).Nodup) :
    ∀ (xs : List String) (q : List DAGNode) (f : String → Int),
    processNeighbors nodes xs q (mapOfI nodes f) =
      (q ++ appendedNodes nodes xs f, mapOfI nodes fun v => f v - (xs.count v : Int)) := by
  intro xs
  induction xs with
  | nil =>
    intro q f
    simp only [processNeighbors, appendedNodes, List.append_nil]
    have hm : (mapOfI nodes fun v => f v - (List.count v ([] : List String) : Int)) =
        mapOfI nodes f :=
      mapOfI_congr nodes _ _ fun v _ => by simp
    rw [hm]
  | cons x rest ih =>
    intro q f
    have hdeg2 : updDeg (mapOfI nodes f) x = mapOfI nodes (decBy f x) :=
      updDeg_mapOfI nodes hnd f x
    simp only [processNeighbors, hdeg2]
    have hfinal : (mapOfI nodes fun v => decBy f x v - (rest.count v : Int)) =
        mapOfI nodes fun v => f v - (((x :: rest).count v : Nat) : Int) := by
      apply mapOfI_congr
      intro v _
      simp only [decBy, List.count_cons]
      by_cases hvx : v = x
      · have hb : (x == v) = true := by simp [hvx]
        rw [if_pos hvx, hb, if_pos rfl]
        push_cast
        omega
      · have hb : (x == v) = false := by
          simp only [beq_eq_false_iff_ne, ne_eq]
          exact fun hh => hvx hh.symm
        rw [if_neg hvx, hb, if_neg (by simp : ¬ (false = true))]
        push_cast
        omega
    by_cases hx : x ∈ nodeIds nodes
    · rw [lookupDeg_mapOfI_mem nodes _ x hx]
      by_cases hfx : f x = 1
      · have hcond : some (decBy f x x) = some (0 : Int) := by
          simp [decBy, hfx]
        rw [if_pos hcond]
        obtain ⟨nn, hnn, _, _⟩ := find?_id_eq_some nodes x hx
        rw [hnn]
        show processNeighbors nodes rest (q ++ [nn]) (mapOfI nodes (decBy f x)) = _
        rw [ih (q ++ [nn]) (decBy f x), hfinal]
        have hcond2 : x ∈ nodeIds nodes ∧ f x = 1 := ⟨hx, hfx⟩
        simp only [appendedNodes, if_pos hcond2, hnn, Option.toList, List.append_assoc,
          List.singleton_append]
      · have hcond : ¬ (some (decBy f x x) = some (0 : Int)) := by
          simp only [decBy, eq_self_iff_true, if_true, Option.some.injEq]
          omega
        rw [if_neg hcond]
        rw [ih q (decBy f x), hfinal]
        have hcond2 : ¬ (x ∈ nodeIds nodes ∧ f x = 1) := fun hh => hfx hh.2
        simp only [appendedNodes, if_neg hcond2, List.nil_append]
    · rw [lookupDeg_mapOfI_not_mem nodes _ x hx]
      rw [if_neg (by simp)]
      rw [ih q (decBy f x), hfinal]
      have hcond2 : ¬ (x ∈ nodeIds nodes ∧ f x = 1) := fun hh => hx hh.1
      simp only [appendedNodes, if_neg hcond2, List.nil_append]

theorem appendedNodes_subset (nodes : List DAGNode) :
    ∀ (xs : List String) (f : String → Int) (n : DAGNode),
    n ∈ appendedNodes nodes xs f → n ∈ nodes := by
  intro xs
  induction xs with
  | nil => intro f n h; cases h
  | cons x rest ih =>
    intro f n h
    simp only [appendedNodes, List.mem_append] at h
    rcases h with h | h
    · by_cases hc : x ∈ nodeIds nodes ∧ f x = 1
      · rw [if_pos hc] at h
        obtain ⟨nn, hnn, hmem, _⟩ := find?_id_eq_some nodes x hc.1
        rw [hnn] at h
        simp only [Option.toList_some, List.mem_singleton] at h
        rw [h]
        exact hmem
      · rw [if_neg hc] at h
        cases h
    · exact ih _ n h

theorem appendedNodes_id_iff (nodes : List DAGNode) :
    ∀ (xs : List String) (f : String → Int) (x : String),
    (x ∈ (appendedNodes nodes xs f).map fun n => n.id) ↔
      (x ∈ nodeIds nodes ∧ 1 ≤ f x ∧ f x ≤ (xs.count x : Int)) := by
  intro xs
  induction xs with
  | nil =>
    intro f x
    simp only [appendedNodes, List.map_nil, List.not_mem_nil, false_iff, List.count_nil,
      Nat.cast_zero]
    intro ⟨_, h1, h2⟩
    omega
  | cons y rest ih =>
    intro f x
    constructor
    · intro h
      simp only [appendedNodes, List.map_append, List.mem_append] at h
      rcases h with h | h
      · by_cases hc : y ∈ nodeIds nodes ∧ f y = 1
        · obtain ⟨hcm, hcf⟩ := hc
          rw [if_pos ⟨hcm, hcf⟩] at h
          obtain ⟨nn, hnn, _, hid⟩ := find?_id_eq_some nodes y hcm
          rw [hnn] at h
          simp only [Option.toList, List.map_cons, List.map_nil, List.mem_singleton] at h
          have hxy : x = y := h.trans hid
          subst hxy
          have hcnt : List.count x (x :: rest) = List.count x rest + 1 := by
            simp [List.count_cons]
          refine ⟨hcm, by omega, ?_⟩
          rw [hcnt]
          push_cast
          omega
        · rw [if_neg hc] at h
          simp at h
      · rw [ih] at h
        obtain ⟨hmem, h1, h2⟩ := h
        simp only [decBy] at h1 h2
        by_cases hxy : x = y
        · subst hxy
          rw [if_pos rfl] at h1 h2
          have hcnt : List.count x (x :: rest) = List.count x rest + 1 := by
            simp [List.count_cons]
          refine ⟨hmem, by omega, ?_⟩
          rw [hcnt]
          push_cast at h2 ⊢
          omega
        · rw [if_neg hxy] at h1 h2
          have hbf : (y == x) = false := by
            simp only [beq_eq_false_iff_ne, ne_eq]
            exact fun hh => hxy hh.symm
          have hcnt : List.count x (y :: rest) = List.count x rest := by
            rw [List.count_cons, hbf]
            simp
          rw [hcnt]
          exact ⟨hmem, h1, h2⟩
    · intro ⟨hmem, h1, h2⟩
      simp only [appendedNodes, List.map_append, List.mem_append]
      by_cases hxy : x = y
      · subst hxy
        have hcnt : List.count x (x :: rest) = List.count x rest + 1 := by
          simp [List.count_cons]
        rw [hcnt] at h2
        by_cases hfx : f x = 1
        · left
          rw [if_pos ⟨hmem, hfx⟩]
          obtain ⟨nn, hnn, _, hid⟩ := find?_id_eq_some nodes x hmem
          rw [hnn]
          simp [Option.toList, hid]
        · right
          rw [ih]
          refine ⟨hmem, ?_, ?_⟩
          · simp only [decBy, if_pos rfl]
            omega
          · simp only [decBy, if_pos rfl]
            push_cast at h2 ⊢
            omega
      · right
        rw [ih]
        have hbf : (y == x) = false := by
          simp only [beq_eq_false_iff_ne, ne_eq]
          exact fun hh => hxy hh.symm
        have hcnt : List.count x (y :: rest) = List.count x rest := by
          rw [List.count_cons, hbf]
          simp
        rw [hcnt] at h2
        refine ⟨hmem, ?_, ?_⟩
        · simp only [decBy, if_neg hxy]
          exact h1
        · simp only [decBy, if_neg hxy]
          exact h2

theorem appendedNodes_ids_nodup (nodes : List DAGNode) :
    ∀ (xs : List String) (f : String → Int),
    ((appendedNodes nodes xs f).map fun n => n.id).Nodup := by
  intro xs
  induction xs with
  | nil => intro f; simp [appendedNodes]
  | cons y rest ih =>
    intro f
    simp only [appendedNodes, List.map_append]
    by_cases hc : y ∈ nodeIds nodes ∧ f y = 1
    · obtain ⟨hcm, hcf⟩ := hc
      rw [if_pos ⟨hcm, hcf⟩]
      obtain ⟨nn, hnn, _, hid⟩ := find?_id_eq_some nodes y hcm
      rw [hnn]
      simp only [Option.toList, List.map_cons, List.map_nil, List.singleton_append,
        List.nodup_cons]
      constructor
      · rw [hid, appendedNodes_id_iff]
        intro ⟨_, h1, _⟩
        simp only [decBy, eq_self_iff_true, if_true] at h1
        omega
      · exact ih _
    · rw [if_neg hc]
      simp only [List.map_nil, List.nil_append]
      exact ih _

/-! ### The outer Kahn loop invariant -/

/-- The run of the topological-sort loop on canonical state: queue `Q`,
emitted ids `E`. -/
def kahnOut (nodes : List DAGNode) (edges : List DAGEdge)
    (Q : List DAGNode) (E : List String) : List DAGNode :=
  kahnTopo nodes (lookupAdj (mapOfA nodes (outAdj edges))) Q (mapOfI nodes (remDeg edges E))

/-- What holds of the output `O` of the loop started with emitted list
`E`: all emitted nodes come from the node list, ids never repeat, a node
id has been emitted iff all its incoming edges start at emitted nodes,
and every edge whose target has been emitted goes forward in the emitted
sequence. -/
def KahnConcl (nodes : List DAGNode) (edges : List DAGEdge)
    (E : List String) (O : List DAGNode) : Prop :=
  (∀ n ∈ O, n ∈ nodes) ∧
  ((E ++ O.map fun n => n.id).Nodup) ∧
  (∀ v ∈ nodeIds nodes,
    v ∈ E ++ O.map (fun n => n.id) ↔ remDeg edges (E ++ O.map fun n => n.id) v = 0) ∧
  (∀ e ∈ edges, e.to_node ∈ E ++ O.map (fun n => n.id) →
    e.from_node ∈ E ++ O.map (fun n => n.id) ∧
    posIn (E ++ O.map fun n => n.id) e.from_node
      < posIn (E ++ O.map fun n => n.id) e.to_node)

theorem kahnOut_nil (nodes : List DAGNode) (edges : List DAGEdge) (E : List String) :
    kahnOut nodes edges [] E = [] := by
  unfold kahnOut
  exact kahnTopo_nil _ _ _

theorem kahnOut_cons (nodes : List DAGNode) (edges : List DAGEdge)
    (hnd : (nodeIds nodes).Nodup) (c : DAGNode) (rest : List DAGNode) (E : List String)
    (hcid : c.id ∈ nodeIds nodes) (hcE : c.id ∉ E) :
    kahnOut nodes edges (c :: rest) E =
      c :: kahnOut nodes edges
        (rest ++ appendedNodes nodes (outAdj edges c.id) (remDeg edges E))
        (E ++ [c.id]) := by
  unfold kahnOut
  rw [kahnTopo_cons, lookupAdj_mapOfA_mem nodes _ _ hcid,
    processNeighbors_spec nodes hnd]
  have hdeg : (mapOfI nodes fun v => remDeg edges E v - ((outAdj edges c.id).count v : Int)) =
      mapOfI nodes (remDeg edges (E ++ [c.id])) :=
    mapOfI_congr nodes _ _ fun v _ => (remDeg_append_single edges E c.id v hcE).symm
  rw [hdeg]

theorem kahnStep_measure (nodes : List DAGNode) (edges : List DAGEdge)
    (hnd : (nodeIds nodes).Nodup) (c : DAGNode) (rest : List DAGNode) (E : List String)
    (hcE : c.id ∉ E) :
    (rest ++ appendedNodes nodes (outAdj edges c.id) (remDeg edges E)).length
      + degSum (mapOfI nodes (remDeg edges (E ++ [c.id])))
    ≤ rest.length + degSum (mapOfI nodes (remDeg edges E)) := by
  have h := processNeighbors_measure nodes (outAdj edges c.id) rest
    (mapOfI nodes (remDeg edges E))
  rw [processNeighbors_spec nodes hnd] at h
  have hdeg : (mapOfI nodes fun v => remDeg edges E v - ((outAdj edges c.id).count v : Int)) =
      mapOfI nodes (remDeg edges (E ++ [c.id])) :=
    mapOfI_congr nodes _ _ fun v _ => (remDeg_append_single edges E c.id v hcE).symm
  rw [hdeg] at h
  exact h

theorem kahn_concl_of_empty_queue (nodes : List DAGNode) (edges : List DAGEdge)
    (E : List String)
    (hnd2 : (E ++ ([] : List DAGNode).map fun n => n.id).Nodup)
    (hmem : ∀ v ∈ nodeIds nodes,
      (v ∈ E ∨ v ∈ ([] : List DAGNode).map fun n => n.id) ↔ remDeg edges E v = 0)
    (hord : ∀ e ∈ edges, e.to_node ∈ E →
      e.from_node ∈ E ∧ posIn E e.from_node < posIn E e.to_node) :
    KahnConcl nodes edges E (kahnOut nodes edges [] E) := by
  rw [kahnOut_nil]
  refine ⟨by simp, ?_, ?_, ?_⟩
  · simpa using hnd2
  · intro v hv
    simp only [List.map_nil, List.append_nil]
    have := hmem v hv
    simpa using this
  · intro e he hto
    simp only [List.map_nil, List.append_nil] at hto ⊢
    exact hord e he hto

theorem kahn_invariant (nodes : List DAGNode) (edges : List DAGEdge)
    (hnd : (nodeIds nodes).Nodup) :
    ∀ (meas : Nat) (E : List String) (Q : List DAGNode),
    Q.length + degSum (mapOfI nodes (remDeg edges E)) ≤ meas →
    (∀ n ∈ Q, n ∈ nodes) →
    ((E ++ Q.map fun n => n.id).Nodup) →
    (∀ v ∈ E, v ∈ nodeIds nodes) →
    (∀ v ∈ nodeIds nodes, (v ∈ E ∨ v ∈ Q.map fun n => n.id) ↔ remDeg edges E v = 0) →
    (∀ e ∈ edges, e.to_node ∈ E →
      e.from_node ∈ E ∧ posIn E e.from_node < posIn E e.to_node) →
    KahnConcl nodes edges E (kahnOut nodes edges Q E) := by
  intro meas
  induction meas with
  | zero =>
    intro E Q hm hQ hnd2 hEN hmem hord
    have hQnil : Q = [] := by
      cases Q with
      | nil => rfl
      | cons c rest => simp [List.length_cons] at hm
    subst hQnil
    exact kahn_concl_of_empty_queue nodes edges E hnd2 hmem hord
  | succ m ih =>
    intro E Q hm hQ hnd2 hEN hmem hord
    cases Q with
    | nil => exact kahn_concl_of_empty_queue nodes edges E hnd2 hmem hord
    | cons c rest =>
      -- Basic facts about the popped node `c`.
      have hcmem : c ∈ nodes := hQ c (by simp)
      have hcid : c.id ∈ nodeIds nodes := by
        simp only [nodeIds, List.mem_map]
        exact ⟨c, hcmem, rfl⟩
      have hcinq : c.id ∈ (c :: rest).map fun n => n.id := by simp
      have hndE : E.Nodup := ((List.nodup_append).mp hnd2).1
      have hdisj : ∀ v ∈ E, v ∉ (c :: rest).map fun n => n.id :=
        fun v hv => ((List.nodup_append).mp hnd2).2.2 hv
      have hcE : c.id ∉ E := fun hc => hdisj c.id hc hcinq
      have hremc : remDeg edges E c.id = 0 := (hmem c.id hcid).mp (Or.inr hcinq)
      -- The appended nodes.
      set A := appendedNodes nodes (outAdj edges c.id) (remDeg edges E) with hA
      have hAsub : ∀ n ∈ A, n ∈ nodes := fun n hn =>
        appendedNodes_subset nodes _ _ n hn
      have hAids : ∀ x, (x ∈ A.map fun n => n.id) ↔
          (x ∈ nodeIds nodes ∧ 1 ≤ remDeg edges E x ∧
            remDeg edges E x ≤ ((outAdj edges c.id).count x : Int)) :=
        fun x => appendedNodes_id_iff nodes _ _ x
      have hAnodup : (A.map fun n => n.id).Nodup := appendedNodes_ids_nodup nodes _ _
      have hAfresh : ∀ x, (x ∈ A.map fun n => n.id) →
          x ∉ E ∧ x ∉ (c :: rest).map fun n => n.id := by
        intro x hx
        obtain ⟨hxN, hx1, _⟩ := (hAids x).mp hx
        have hnz : ¬ remDeg edges E x = 0 := by omega
        have := (hmem x hxN)
        constructor
        · intro hxE
          exact hnz (this.mp (Or.inl hxE))
        · intro hxQ
          exact hnz (this.mp (Or.inr hxQ))
      have hAzero : ∀ x, (x ∈ A.map fun n => n.id) →
          remDeg edges (E ++ [c.id]) x = 0 := by
        intro x hx
        obtain ⟨_, _, hx2⟩ := (hAids x).mp hx
        have hle := remDeg_append_single edges E c.id x hcE
        have hge := remDeg_nonneg edges (E ++ [c.id]) x
        omega
      -- Unfold one loop iteration.
      rw [kahnOut_cons nodes edges hnd c rest E hcid hcE, ← hA]
      -- Establish the invariant for the next state and apply the IH.
      have hmono : ∀ v, remDeg edges E v = 0 → remDeg edges (E ++ [c.id]) v = 0 := by
        intro v hv
        have hle := remDeg_append_single edges E c.id v hcE
        have hge := remDeg_nonneg edges (E ++ [c.id]) v
        have hcnt : (0 : Int) ≤ ((outAdj edges c.id).count v : Int) := by positivity
        omega
      have hconcl := ih (E ++ [c.id]) (rest ++ A)
        (by
          have hs := kahnStep_measure nodes edges hnd c rest E hcE
          rw [← hA] at hs
          simp only [List.length_cons] at hm
          omega)
        (by
          intro n hn
          rcases List.mem_append.mp hn with hn | hn
          · exact hQ n (List.mem_cons_of_mem _ hn)
          · exact hAsub n hn)
        (by
          -- Nodup of (E ++ [c.id]) ++ (rest ++ A).map ids
          have hbase : ((E ++ [c.id]) ++ rest.map fun n => n.id).Nodup := by
            have : (E ++ (c :: rest).map fun n => n.id) =
                ((E ++ [c.id]) ++ rest.map fun n => n.id) := by
              simp
            rw [this] at hnd2
            exact hnd2
          rw [List.map_append, ← List.append_assoc]
          rw [List.nodup_append]
          refine ⟨hbase, hAnodup, ?_⟩
          intro x hx hxA
          obtain ⟨hxE, hxQ⟩ := hAfresh x hxA
          rcases List.mem_append.mp hx with hx | hx
          · rcases List.mem_append.mp hx with hx | hx
            · exact hxE hx
            · simp only [List.mem_singleton] at hx
              exact hxQ (by simp [hx])
          · exact hxQ (by simp [hx])
        )
        (by
          intro v hv
          rcases List.mem_append.mp hv with hv | hv
          · exact hEN v hv
          · simp only [List.mem_singleton] at hv
            rw [hv]
            exact hcid)
        (by
          intro v hvN
          constructor
          · intro hcase
            rcases hcase with hv | hv
            · rcases List.mem_append.mp hv with hv | hv
              · exact hmono v ((hmem v hvN).mp (Or.inl hv))
              · simp only [List.mem_singleton] at hv
                rw [hv]
                exact hmono c.id hremc
            · rw [List.map_append] at hv
              rcases List.mem_append.mp hv with hv | hv
              · exact hmono v ((hmem v hvN).mp (Or.inr (by simp [hv])))
              · exact hAzero v hv
          · intro hv0
            have hsplit := remDeg_append_single edges E c.id v hcE
            by_cases hz : remDeg edges E v = 0
            · rcases (hmem v hvN).mpr hz with hv | hv
              · exact Or.inl (List.mem_append_left _ hv)
              · simp only [List.map_cons, List.mem_cons] at hv
                rcases hv with hv | hv
                · exact Or.inl (List.mem_append_right _ (by simp [hv]))
                · exact Or.inr (by rw [List.map_append]; exact List.mem_append_left _ hv)
            · have h1 : 1 ≤ remDeg edges E v := by
                have := remDeg_nonneg edges E v
                omega
              have h2 : remDeg edges E v ≤ ((outAdj edges c.id).count v : Int) := by omega
              refine Or.inr ?_
              rw [List.map_append]
              exact List.mem_append_right _ ((hAids v).mpr ⟨hvN, h1, h2⟩))
        (by
          intro e he hto
          rcases List.mem_append.mp hto with hto | hto
          · obtain ⟨hf, hp⟩ := hord e he hto
            refine ⟨List.mem_append_left _ hf, ?_⟩
            rw [posIn_append_of_mem E [c.id] _ hf, posIn_append_of_mem E [c.id] _ hto]
            exact hp
          · simp only [List.mem_singleton] at hto
            have hf : e.from_node ∈ E := by
              have := (remDeg_eq_zero_iff edges E c.id).mp hremc
              exact this e he hto
            refine ⟨List.mem_append_left _ hf, ?_⟩
            rw [posIn_append_of_mem E [c.id] _ hf, hto,
              posIn_append_of_not_mem E [c.id] _ hcE]
            have := posIn_lt_length E e.from_node hf
            simp only [posIn]
            omega)
      -- Transport the conclusion back to the original emitted list.
      obtain ⟨c1, c2, c3, c4⟩ := hconcl
      have hFeq : ∀ (l : List String),
          (E ++ [c.id]) ++ l = E ++ (c.id :: l) := by
        intro l
        simp
      refine ⟨?_, ?_, ?_, ?_⟩
      · intro n hn
        rcases List.mem_cons.mp hn with rfl | hn
        · exact hcmem
        · exact c1 n hn
      · rw [List.map_cons]
        rw [show E ++ (c.id :: (kahnOut nodes edges (rest ++ A) (E ++ [c.id])).map fun n => n.id)
            = (E ++ [c.id]) ++ (kahnOut nodes edges (rest ++ A) (E ++ [c.id])).map (fun n => n.id)
          from (hFeq _).symm]
        exact c2
      · intro v hv
        rw [List.map_cons, show E ++ (c.id :: (kahnOut nodes edges (rest ++ A) (E ++ [c.id])).map fun n => n.id)
            = (E ++ [c.id]) ++ (kahnOut nodes edges (rest ++ A) (E ++ [c.id])).map (fun n => n.id)
          from (hFeq _).symm]
        exact c3 v hv
      · intro e he
        rw [List.map_cons, show E ++ (c.id :: (kahnOut nodes edges (rest ++ A) (E ++ [c.id])).map fun n => n.id)
            = (E ++ [c.id]) ++ (kahnOut nodes edges (rest ++ A) (E ++ [c.id])).map (fun n => n.id)
          from (hFeq _).symm]
        exact c4 e he

/-! ### Cycles -/

/-- The edge relation of the graph: a directed edge from `u` to `v`. -/
def edgeRel (edges : List DAGEdge) (u v : String) : Prop :=
  ∃ e ∈ edges, e.from_node = u ∧ e.to_node = v

/-- Acyclicity in the sense of the specification: no nonempty directed
walk returns to its start. -/
def Acyclic (edges : List DAGEdge) : Prop :=
  ∀ v, ¬ Relation.TransGen (edgeRel edges) v v

theorem chain_transGen {α : Type} (r : α → α → Prop) :
    ∀ (l : List α) (x y : α), List.Chain r x l → y ∈ l → Relation.TransGen r x y := by
  intro l
  induction l with
  | nil =>
    intro x y _ hy
    cases hy
  | cons b t ih =>
    intro x y hch hy
    rw [List.chain_cons] at hch
    rcases List.mem_cons.mp hy with rfl | hy
    · exact Relation.TransGen.single hch.1
    · exact Relation.TransGen.head hch.1 (ih b y hch.2 hy)

theorem chain_suffix {α : Type} (r : α → α → Prop) :
    ∀ (a : List α) (x y : α) (t l : List α),
    List.Chain r x l → l = a ++ y :: t → List.Chain r y t := by
  intro a
  induction a with
  | nil =>
    intro x y t l hch hl
    rw [List.nil_append] at hl
    subst hl
    exact (List.chain_cons.mp hch).2
  | cons h a2 ih =>
    intro x y t l hch hl
    rw [List.cons_append] at hl
    subst hl
    exact ih h y t _ (List.chain_cons.mp hch).2 rfl

theorem exists_dup_split {α : Type} :
    ∀ (l : List α), ¬ l.Nodup → ∃ (x : α) (a b c : List α), l = a ++ x :: (b ++ x :: c) := by
  intro l
  induction l with
  | nil =>
    intro h
    exact absurd List.nodup_nil h
  | cons h t ih =>
    intro hnd
    by_cases hmem : h ∈ t
    · obtain ⟨s, u, hsu⟩ := List.append_of_mem hmem
      exact ⟨h, [], s, u, by rw [hsu]; simp⟩
    · have hnt : ¬ t.Nodup := by
        intro hh
        exact hnd (List.nodup_cons.mpr ⟨hmem, hh⟩)
      obtain ⟨x, a, b, c, habc⟩ := ih hnt
      exact ⟨x, h :: a, b, c, by rw [habc]; simp⟩

theorem nodup_length_le {α : Type} [DecidableEq α] (l S : List α)
    (hl : l.Nodup) (hsub : ∀ x ∈ l, x ∈ S) : l.length ≤ S.length := by
  have h1 : l.toFinset.card = l.length := List.toFinset_card_of_nodup hl
  have h2 : l.toFinset ⊆ S.toFinset := by
    intro x hx
    rw [List.mem_toFinset] at hx ⊢
    exact hsub x hx
  have h3 := Finset.card_le_card h2
  have h4 : S.toFinset.card ≤ S.length := S.toFinset_card_le
  omega

theorem exists_long_chain (edges : List DAGEdge) (S : List String)
    (hS : ∀ v ∈ S, ∃ u ∈ S, edgeRel edges u v) (v0 : String) (hv0 : v0 ∈ S) :
    ∀ n, ∃ (x : String) (l : List String), x ∈ S ∧ (∀ y ∈ l, y ∈ S) ∧ l.length = n ∧
      List.Chain (edgeRel edges) x l := by
  intro n
  induction n with
  | zero => exact ⟨v0, [], hv0, by simp, rfl, List.Chain.nil⟩
  | succ k ihn =>
    obtain ⟨x, l, hxS, hlS, hlen, hch⟩ := ihn
    obtain ⟨u, huS, hur⟩ := hS x hxS
    refine ⟨u, x :: l, huS, ?_, by simp [hlen], List.Chain.cons hur hch⟩
    intro y hy
    rcases List.mem_cons.mp hy with rfl | hy
    · exact hxS
    · exact hlS y hy

/-- A nonempty finite set of ids each of which has a predecessor inside
the set contains a directed cycle. -/
theorem cycle_of_closed (edges : List DAGEdge) (S : List String) (hne : S ≠ [])
    (hS : ∀ v ∈ S, ∃ u ∈ S, edgeRel edges u v) :
    ∃ w, Relation.TransGen (edgeRel edges) w w := by
  obtain ⟨v0, hv0⟩ := List.exists_mem_of_ne_nil S hne
  obtain ⟨x, l, hxS, hlS, hlen, hch⟩ := exists_long_chain edges S hS v0 hv0 (S.length + 1)
  have hmemS : ∀ y ∈ x :: l, y ∈ S := by
    intro y hy
    rcases List.mem_cons.mp hy with rfl | hy
    · exact hxS
    · exact hlS y hy
  have hnotnod : ¬ (x :: l).Nodup := by
    intro hnod
    have := nodup_length_le (x :: l) S hnod hmemS
    simp only [List.length_cons, hlen] at this
    omega
  obtain ⟨w, a, b, c, habc⟩ := exists_dup_split (x :: l) hnotnod
  cases a with
  | nil =>
    rw [List.nil_append] at habc
    have hx : x = w := (List.cons.injEq _ _ _ _).mp habc |>.1
    have hl : l = b ++ w :: c := (List.cons.injEq _ _ _ _).mp habc |>.2
    refine ⟨w, ?_⟩
    rw [← hx]
    exact chain_transGen _ l x x hch (by rw [hl, hx]; simp)
  | cons a0 a2 =>
    rw [List.cons_append] at habc
    have hl : l = a2 ++ w :: (b ++ w :: c) := (List.cons.injEq _ _ _ _).mp habc |>.2
    have hch2 : List.Chain (edgeRel edges) w (b ++ w :: c) :=
      chain_suffix _ a2 x w (b ++ w :: c) l hch hl
    exact ⟨w, chain_transGen _ (b ++ w :: c) w w hch2 (by simp)⟩

/-- Along the Kahn output, every walk goes strictly forward; hence no
node on a cycle is ever emitted. -/
theorem transGen_emitted (edges : List DAGEdge) (F : List String)
    (hord : ∀ e ∈ edges, e.to_node ∈ F →
      e.from_node ∈ F ∧ posIn F e.from_node < posIn F e.to_node) :
    ∀ u w, Relation.TransGen (edgeRel edges) u w → w ∈ F →
      u ∈ F ∧ posIn F u < posIn F w := by
  intro u w h
  induction h with
  | single hr =>
    intro hw
    obtain ⟨e, he, hf, ht⟩ := hr
    have := hord e he (by rw [ht]; exact hw)
    rw [hf, ht] at this
    exact this
  | tail hmid hr ihh =>
    intro hw
    obtain ⟨e, he, hf, ht⟩ := hr
    have hstep := hord e he (by rw [ht]; exact hw)
    rw [hf, ht] at hstep
    have hprev := ihh hstep.1
    exact ⟨hprev.1, lt_trans hprev.2 hstep.2⟩

/-! ### The topological-sort loop, from its initial state -/

theorem get_topological_order_eq_kahnOut (g : DAGElement)
    (hnd : (nodeIds g.nodes).Nodup) :
    get_topological_order g =
      kahnOut g.nodes g.edges
        (g.nodes.filter fun n => remDeg g.edges [] n.id == 0) [] := by
  unfold get_topological_order kahnOut
  rw [buildAdjDeg_canon g.nodes hnd g.edges]
  dsimp only
  have hdeg : mapOfI g.nodes (inCnt g.edges) = mapOfI g.nodes (remDeg g.edges []) :=
    mapOfI_congr _ _ _ fun v _ => (remDeg_nil_emitted g.edges v).symm
  have hq : (g.nodes.filter fun n =>
        lookupDeg (mapOfA g.nodes (outAdj g.edges), mapOfI g.nodes (inCnt g.edges)).2 n.id
          == some 0)
      = g.nodes.filter fun n => remDeg g.edges [] n.id == 0 := by
    apply List.filter_congr
    intro n hn
    have hmem : n.id ∈ nodeIds g.nodes := by
      simp only [nodeIds, List.mem_map]
      exact ⟨n, hn, rfl⟩
    show (lookupDeg (mapOfI g.nodes (inCnt g.edges)) n.id == some 0)
        = (remDeg g.edges [] n.id == 0)
    rw [lookupDeg_mapOfI_mem g.nodes _ _ hmem, remDeg_nil_emitted]
    rw [Bool.eq_iff_iff]
    simp
  rw [hq, hdeg]

theorem topo_concl (g : DAGElement) (hwf : WFG g.nodes g.edges) :
    KahnConcl g.nodes g.edges [] (get_topological_order g) := by
  rw [get_topological_order_eq_kahnOut g hwf.nodup]
  have hstart_sub : ∀ n ∈ (g.nodes.filter fun n => remDeg g.edges [] n.id == 0), n ∈ g.nodes :=
    fun n hn => List.mem_of_mem_filter hn
  refine kahn_invariant g.nodes g.edges hwf.nodup _ [] _ (le_refl _) hstart_sub ?_ ?_ ?_ ?_
  · simp only [List.nil_append]
    exact List.Nodup.sublist (List.Sublist.map _ (List.filter_sublist _)) hwf.nodup
  · intro v hv
    cases hv
  · intro v hvN
    constructor
    · intro hcase
      rcases hcase with hv | hv
      · cases hv
      · simp only [List.mem_map] at hv
        obtain ⟨n, hn, hid⟩ := hv
        have := (List.mem_filter.mp hn).2
        rw [beq_iff_eq] at this
        rw [← hid]
        exact this
    · intro hv0
      simp only [nodeIds, List.mem_map] at hvN
      obtain ⟨n, hn, hid⟩ := hvN
      refine Or.inr ?_
      simp only [List.mem_map]
      refine ⟨n, List.mem_filter.mpr ⟨hn, ?_⟩, hid⟩
      rw [beq_iff_eq, hid]
      exact hv0
  · intro e _ hto
    cases hto

/-- Completeness: on an acyclic well-formed graph every node id is
emitted by the Kahn loop. -/
theorem topo_complete (g : DAGElement) (hwf : WFG g.nodes g.edges)
    (hacyc : Acyclic g.edges) :
    ∀ v ∈ nodeIds g.nodes, v ∈ (get_topological_order g).map fun n => n.id := by
  obtain ⟨c1, c2, c3, c4⟩ := topo_concl g hwf
  simp only [List.nil_append] at c2 c3 c4
  by_contra hmiss
  push_neg at hmiss
  obtain ⟨v, hvN, hvF⟩ := hmiss
  set F := (get_topological_order g).map fun n => n.id with hF
  set S := (nodeIds g.nodes).filter (fun x => decide (x ∉ F)) with hS
  have hmemS : ∀ x, x ∈ S ↔ (x ∈ nodeIds g.nodes ∧ x ∉ F) := by
    intro x
    rw [hS, List.mem_filter]
    simp
  have hvS : v ∈ S := (hmemS v).mpr ⟨hvN, hvF⟩
  have hSne : S ≠ [] := fun hh => by rw [hh] at hvS; cases hvS
  have hclosed : ∀ w ∈ S, ∃ u ∈ S, edgeRel g.edges u w := by
    intro w hw
    obtain ⟨hwN, hwF⟩ := (hmemS w).mp hw
    have hnz : ¬ remDeg g.edges F w = 0 := fun hz => hwF ((c3 w hwN).mpr hz)
    rw [remDeg_eq_zero_iff] at hnz
    push_neg at hnz
    obtain ⟨e, he, hto, hfrom⟩ := hnz
    refine ⟨e.from_node, (hmemS e.from_node).mpr ⟨hwf.from_mem e he, hfrom⟩, e, he, rfl, hto⟩
  obtain ⟨w, hww⟩ := cycle_of_closed g.edges S hSne hclosed
  exact hacyc w hww

/-! ## Claim C1 -/

/-- Shared form of the topological-order correctness result. -/
theorem topo_correct (g : DAGElement)
    (hwf : WFG g.nodes g.edges) (hacyc : Acyclic g.edges) :
    (get_topological_order g).Perm g.nodes ∧
    ∀ e ∈ g.edges,
      posIn ((get_topological_order g).map fun n => n.id) e.from_node
        < posIn ((get_topological_order g).map fun n => n.id) e.to_node := by
  obtain ⟨c1, c2, c3, c4⟩ := topo_concl g hwf
  simp only [List.nil_append] at c2 c3 c4
  have hcomp := topo_complete g hwf hacyc
  have hOnodup : (get_topological_order g).Nodup := List.Nodup.of_map _ c2
  have hnodesnodup : g.nodes.Nodup := List.Nodup.of_map _ hwf.nodup
  have hOsub : get_topological_order g ⊆ g.nodes := fun n hn => c1 n hn
  have hnodessub : g.nodes ⊆ get_topological_order g := by
    intro n hn
    have hidF : n.id ∈ (get_topological_order g).map fun n => n.id :=
      hcomp n.id (by
        simp only [nodeIds, List.mem_map]
        exact ⟨n, hn, rfl⟩)
    simp only [List.mem_map] at hidF
    obtain ⟨o, hoO, hoid⟩ := hidF
    have heq : o = n := List.inj_on_of_nodup_map hwf.nodup (hOsub hoO) hn hoid
    rw [← heq]
    exact hoO
  have hperm : (get_topological_order g).Perm g.nodes :=
    (List.subperm_of_subset hOnodup hOsub).antisymm
      (List.subperm_of_subset hnodesnodup hnodessub)
  refine ⟨hperm, ?_⟩
  intro e he
  have htoF : e.to_node ∈ (get_topological_order g).map fun n => n.id :=
    hcomp e.to_node (hwf.to_mem e he)
  exact (c4 e he htoF).2

/-- C1: for every acyclic well-formed graph (unique node ids, all edge
endpoints known), `get_topological_order` returns a permutation of all
nodes in which, for every edge (a→b), the position of a strictly
precedes the position of b. -/
theorem C1_topological_order_correct (g : DAGElement)
    (hwf : WFG g.nodes g.edges) (hacyc : Acyclic g.edges) :
    (get_topological_order g).Perm g.nodes ∧
    ∀ e ∈ g.edges,
      posIn ((get_topological_order g).map fun n => n.id) e.from_node
        < posIn ((get_topological_order g).map fun n => n.id) e.to_node :=
  topo_correct g hwf hacyc

/-- A graph with no edges has no directed cycle. -/
theorem acyclic_of_no_edges (edges : List DAGEdge) (h : edges = []) : Acyclic edges := by
  subst h
  intro v hv
  cases hv with
  | single hr =>
    obtain ⟨e, he, _⟩ := hr
    cases he
  | tail _ hr =>
    obtain ⟨e, he, _⟩ := hr
    cases he

/-- Concrete two-node edgeless graph for witnesses. -/
def gW1 : DAGElement :=
  ⟨"dag", "t".data, none,
   [⟨"a", "A".data, none, none, none, none, none⟩,
    ⟨"b", "B".data, none, none, none, none, none⟩], [], none⟩

/-- C1 witness: the theorem applied to a concrete acyclic graph. -/
theorem C1_witness :
    WFG gW1.nodes gW1.edges ∧ Acyclic gW1.edges ∧
    ((get_topological_order gW1).Perm gW1.nodes ∧
      ∀ e ∈ gW1.edges,
        posIn ((get_topological_order gW1).map fun n => n.id) e.from_node
          < posIn ((get_topological_order gW1).map fun n => n.id) e.to_node) :=
  have hwf : WFG gW1.nodes gW1.edges :=
    ⟨by decide, fun e he => absurd he (List.not_mem_nil e),
      fun e he => absurd he (List.not_mem_nil e)⟩
  have hacyc : Acyclic gW1.edges := acyclic_of_no_edges _ rfl
  ⟨hwf, hacyc, C1_topological_order_correct gW1 hwf hacyc⟩

/-! ## Claim C2: the counting loop of `_check_acyclic` simulates the
topological-order loop -/

theorem updDeg_keys : ∀ (m : List (String × Int)) (x : String),
    ((updDeg m x).map fun p => p.1) = m.map fun p => p.1
  | [], _ => rfl
  | (k, v) :: rest, x => by
    by_cases h : k = x
    · simp [updDeg, h]
    · simp only [updDeg, if_neg h, List.map_cons, List.cons.injEq]
      exact ⟨trivial, updDeg_keys rest x⟩

theorem lookupDeg_some_mem : ∀ (m : List (String × Int)) (x : String) (v : Int),
    lookupDeg m x = some v → x ∈ m.map fun p => p.1
  | [], x, v => by simp [lookupDeg]
  | (k, w) :: rest, x, v => by
    simp only [lookupDeg, List.map_cons, List.mem_cons]
    by_cases h : k = x
    · intro _
      exact Or.inl h.symm
    · rw [if_neg h]
      intro hl
      exact Or.inr (lookupDeg_some_mem rest x v hl)

theorem processNeighbors_keys (nodes : List DAGNode) :
    ∀ (xs : List String) (q : List DAGNode) (deg : List (String × Int)),
    ((processNeighbors nodes xs q deg).2.map fun p => p.1) = deg.map fun p => p.1 := by
  intro xs
  induction xs with
  | nil => intro q deg; rfl
  | cons x rest ih =>
    intro q deg
    simp only [processNeighbors]
    by_cases h : lookupDeg (updDeg deg x) x = some 0
    · rw [if_pos h]
      cases hfind : nodes.find? fun n => n.id == x with
      | some nn =>
        dsimp only
        rw [ih (q ++ [nn]) (updDeg deg x), updDeg_keys]
      | none =>
        dsimp only
        rw [ih q (updDeg deg x), updDeg_keys]
    · rw [if_neg h]
      rw [ih q (updDeg deg x), updDeg_keys]

theorem processNeighborsId_sim (nodes : List DAGNode) :
    ∀ (xs : List String) (q : List DAGNode) (deg : List (String × Int)),
    (deg.map fun p => p.1) = nodeIds nodes →
    (processNeighborsId xs (q.map fun n => n.id) deg).1
        = ((processNeighbors nodes xs q deg).1).map (fun n => n.id)
    ∧ (processNeighborsId xs (q.map fun n => n.id) deg).2
        = (processNeighbors nodes xs q deg).2 := by
  intro xs
  induction xs with
  | nil =>
    intro q deg _
    exact ⟨rfl, rfl⟩
  | cons x rest ih =>
    intro q deg hkeys
    simp only [processNeighborsId, processNeighbors]
    have hkeys2 : ((updDeg deg x).map fun p => p.1) = nodeIds nodes := by
      rw [updDeg_keys]
      exact hkeys
    by_cases hcond : lookupDeg (updDeg deg x) x = some 0
    · rw [if_pos hcond, if_pos hcond]
      have hxk : x ∈ (updDeg deg x).map fun p => p.1 :=
        lookupDeg_some_mem _ x 0 hcond
      rw [hkeys2] at hxk
      obtain ⟨nn, hnn, _, hid⟩ := find?_id_eq_some nodes x hxk
      rw [hnn]
      dsimp only
      have hqmap : (q.map fun n => n.id) ++ [x] = (q ++ [nn]).map fun n => n.id := by
        simp [hid]
      rw [hqmap]
      exact ih (q ++ [nn]) (updDeg deg x) hkeys2
    · rw [if_neg hcond, if_neg hcond]
      exact ih q (updDeg deg x) hkeys2

theorem kahnCount_sim (nodes : List DAGNode) (adj : String → List String) :
    ∀ (meas : Nat) (Q : List DAGNode) (deg : List (String × Int)),
    Q.length + degSum deg ≤ meas →
    (deg.map fun p => p.1) = nodeIds nodes →
    kahnCount adj (Q.map fun n => n.id) deg = (kahnTopo nodes adj Q deg).length := by
  intro meas
  induction meas with
  | zero =>
    intro Q deg hm _
    have hQnil : Q = [] := by
      cases Q with
      | nil => rfl
      | cons c rest => simp [List.length_cons] at hm
    subst hQnil
    rw [List.map_nil, kahnCount_nil, kahnTopo_nil, List.length_nil]
  | succ m ih =>
    intro Q deg hm hkeys
    cases Q with
    | nil => rw [List.map_nil, kahnCount_nil, kahnTopo_nil, List.length_nil]
    | cons c rest =>
      rw [List.map_cons, kahnCount_cons, kahnTopo_cons, List.length_cons]
      have hsim := processNeighborsId_sim nodes (adj c.id) rest deg hkeys
      rw [hsim.1, hsim.2]
      have hm2 : (processNeighbors nodes (adj c.id) rest deg).1.length
          + degSum (processNeighbors nodes (adj c.id) rest deg).2 ≤ m := by
        have := processNeighbors_measure nodes (adj c.id) rest deg
        simp only [List.length_cons] at hm
        omega
      rw [ih (processNeighbors nodes (adj c.id) rest deg).1
        (processNeighbors nodes (adj c.id) rest deg).2 hm2
        (by rw [processNeighbors_keys]; exact hkeys)]

theorem mapOfI_keys (nodes : List DAGNode) (f : String → Int) :
    ((mapOfI nodes f).map fun p => p.1) = nodeIds nodes := by
  induction nodes with
  | nil => rfl
  | cons n rest ih =>
    simp only [mapOfI, nodeIds, List.map_cons, List.cons.injEq] at ih ⊢
    exact ⟨trivial, ih⟩

/-- `_check_acyclic` succeeds exactly when the topological order emitted
every node — the two Kahn loops run in lockstep. -/
theorem check_acyclic_eq_length (g : DAGElement) (hnd : (nodeIds g.nodes).Nodup) :
    check_acyclic g.nodes g.edges =
      ((get_topological_order g).length == g.nodes.length) := by
  unfold check_acyclic
  rw [buildAdjDeg_canon g.nodes hnd g.edges]
  dsimp only
  have hq : ((mapOfI g.nodes (inCnt g.edges)).filter fun p => p.2 == 0).map (fun p => p.1)
      = ((g.nodes.filter fun n =>
          lookupDeg (mapOfI g.nodes (inCnt g.edges)) n.id == some 0).map fun n => n.id) := by
    have h1 : ((mapOfI g.nodes (inCnt g.edges)).filter fun p => p.2 == 0)
        = (g.nodes.filter fun n => inCnt g.edges n.id == 0).map
            fun n => (n.id, inCnt g.edges n.id) := by
      unfold mapOfI
      rw [List.filter_map]
      rfl
    rw [h1, List.map_map]
    have h2 : (g.nodes.filter fun n => inCnt g.edges n.id == 0)
        = g.nodes.filter fun n =>
            lookupDeg (mapOfI g.nodes (inCnt g.edges)) n.id == some 0 := by
      apply List.filter_congr
      intro n hn
      have hmem : n.id ∈ nodeIds g.nodes := by
        simp only [nodeIds, List.mem_map]
        exact ⟨n, hn, rfl⟩
      rw [lookupDeg_mapOfI_mem g.nodes _ _ hmem]
      rw [Bool.eq_iff_iff]
      simp
    rw [h2]
    rfl
  rw [hq]
  rw [kahnCount_sim g.nodes _
    ((g.nodes.filter fun n =>
        lookupDeg (mapOfI g.nodes (inCnt g.edges)) n.id == some 0).length
      + degSum (mapOfI g.nodes (inCnt g.edges)))
    _ _ (le_refl _) (mapOfI_keys g.nodes _)]
  unfold get_topological_order
  rw [buildAdjDeg_canon g.nodes hnd g.edges]

/-- Shared form of the cycle-detection result. -/
theorem cycle_detected (g : DAGElement) (hwf : WFG g.nodes g.edges)
    (hcyc : ∃ v, Relation.TransGen (edgeRel g.edges) v v) :
    check_acyclic g.nodes g.edges = false ∧
    (get_topological_order g).length < g.nodes.length := by
  obtain ⟨v, hv⟩ := hcyc
  obtain ⟨c1, c2, c3, c4⟩ := topo_concl g hwf
  simp only [List.nil_append] at c2 c3 c4
  have hvN : v ∈ nodeIds g.nodes := by
    obtain ⟨b, hr, _⟩ := (Relation.TransGen.head'_iff).mp hv
    obtain ⟨e, he, hf, _⟩ := hr
    rw [← hf]
    exact hwf.from_mem e he
  have hvF : v ∉ (get_topological_order g).map fun n => n.id := by
    intro hvF
    have := transGen_emitted g.edges _ c4 v v hv hvF
    omega
  have hFsub : ∀ x ∈ (get_topological_order g).map (fun n => n.id),
      x ∈ (nodeIds g.nodes).erase v := by
    intro x hx
    simp only [List.mem_map] at hx
    obtain ⟨o, hoO, hoid⟩ := hx
    have hxN : x ∈ nodeIds g.nodes := by
      simp only [nodeIds, List.mem_map]
      exact ⟨o, c1 o hoO, hoid⟩
    have hxv : x ≠ v := by
      intro hh
      subst hh
      exact hvF (by simp only [List.mem_map]; exact ⟨o, hoO, hoid⟩)
    exact (List.mem_erase_of_ne hxv).mpr hxN
  have hlen : (get_topological_order g).length < g.nodes.length := by
    have h1 := nodup_length_le ((get_topological_order g).map fun n => n.id)
      ((nodeIds g.nodes).erase v) c2 hFsub
    have h2 : ((nodeIds g.nodes).erase v).length = (nodeIds g.nodes).length - 1 :=
      List.length_erase_of_mem hvN
    have h3 : 0 < (nodeIds g.nodes).length := List.length_pos_of_mem hvN
    have h4 : (nodeIds g.nodes).length = g.nodes.length := List.length_map _ _
    have h5 : ((get_topological_order g).map fun n => n.id).length
        = (get_topological_order g).length := List.length_map _ _
    omega
  refine ⟨?_, hlen⟩
  rw [check_acyclic_eq_length g hwf.nodup]
  simp only [beq_eq_false_iff_ne, ne_eq]
  omega

/-- C2: for every well-formed graph containing at least one directed
cycle, `_check_acyclic` returns `false` and `get_topological_order`
returns strictly fewer nodes than the graph has. -/
theorem C2_cycle_detected (g : DAGElement) (hwf : WFG g.nodes g.edges)
    (hcyc : ∃ v, Relation.TransGen (edgeRel g.edges) v v) :
    check_acyclic g.nodes g.edges = false ∧
    (get_topological_order g).length < g.nodes.length :=
  cycle_detected g hwf hcyc

/-- Concrete two-node cyclic graph for witnesses. -/
def gW2 : DAGElement :=
  ⟨"dag", "t".data, none,
   [⟨"a", "A".data, none, none, none, none, none⟩,
    ⟨"b", "B".data, none, none, none, none, none⟩],
   [⟨"a", "b", none⟩, ⟨"b", "a", none⟩], none⟩

/-- C2 witness: the theorem applied to a concrete cyclic graph. -/
theorem C2_witness :
    WFG gW2.nodes gW2.edges ∧
    (∃ v, Relation.TransGen (edgeRel gW2.edges) v v) ∧
    (check_acyclic gW2.nodes gW2.edges = false ∧
      (get_topological_order gW2).length < gW2.nodes.length) :=
  have hwf : WFG gW2.nodes gW2.edges := ⟨by decide, by decide, by decide⟩
  have hcyc : ∃ v, Relation.TransGen (edgeRel gW2.edges) v v :=
    ⟨"a", Relation.TransGen.head
      ⟨⟨"a", "b", none⟩, by simp [gW2], rfl, rfl⟩
      (Relation.TransGen.single ⟨⟨"b", "a", none⟩, by simp [gW2], rfl, rfl⟩)⟩
  ⟨hwf, hcyc, C2_cycle_detected gW2 hwf hcyc⟩

/-! ## Claim C3: tie-breaking order of the topological sort -/

/-- Three nodes in input order a, b, c with edges a→c then a→b: after a
is processed, b and c reach in-degree zero simultaneously, but they are
appended in the order of a's outgoing edge list (c first), not in input
node-list order (b first). -/
def gW3 : DAGElement :=
  ⟨"dag", "t".data, none,
   [⟨"a", "A".data, none, none, none, none, none⟩,
    ⟨"b", "B".data, none, none, none, none, none⟩,
    ⟨"c", "C".data, none, none, none, none, none⟩],
   [⟨"a", "c", none⟩, ⟨"a", "b", none⟩], none⟩

/-- C3 counterexample: on `gW3` the returned order is a, c, b — the two
nodes that simultaneously reached in-degree zero appear in edge-list
order, not in input-list order, so the output is not the unique
input-list tie-breaking topological order [a, b, c] the claim demands. -/
theorem C3_counterexample :
    ((get_topological_order gW3).map fun n => n.id) = ["a", "c", "b"] ∧
    ¬ (((get_topological_order gW3).map fun n => n.id) = ["a", "b", "c"]) := by
  have heval : ((get_topological_order gW3).map fun n => n.id) = ["a", "c", "b"] := by
    simp [get_topological_order, kahnTopo, processNeighbors, buildAdjDeg, adjAppend, degIncr,
      lookupAdj, lookupDeg, gW3]
  refine ⟨heval, ?_⟩
  rw [heval]
  decide

theorem processNeighbors_front (nodes : List DAGNode) :
    ∀ (xs : List String) (q : List DAGNode) (deg : List (String × Int)),
    ∃ t, (processNeighbors nodes xs q deg).1 = q ++ t := by
  intro xs
  induction xs with
  | nil =>
    intro q deg
    exact ⟨[], (List.append_nil q).symm⟩
  | cons x rest ih =>
    intro q deg
    simp only [processNeighbors]
    by_cases h : lookupDeg (updDeg deg x) x = some 0
    · rw [if_pos h]
      cases hfind : nodes.find? fun n => n.id == x with
      | some nn =>
        dsimp only
        obtain ⟨t, ht⟩ := ih (q ++ [nn]) (updDeg deg x)
        exact ⟨[nn] ++ t, by rw [ht, List.append_assoc]⟩
      | none =>
        dsimp only
        exact ih q (updDeg deg x)
    · rw [if_neg h]
      exact ih q (updDeg deg x)

theorem kahnTopo_front (nodes : List DAGNode) (adj : String → List String) :
    ∀ (meas : Nat) (Q : List DAGNode) (deg : List (String × Int)),
    Q.length + degSum deg ≤ meas →
    ∃ s, kahnTopo nodes adj Q deg = Q ++ s := by
  intro meas
  induction meas with
  | zero =>
    intro Q deg hm
    have hQnil : Q = [] := by
      cases Q with
      | nil => rfl
      | cons c rest => simp [List.length_cons] at hm
    subst hQnil
    exact ⟨[], by rw [kahnTopo_nil, List.nil_append]⟩
  | succ m ih =>
    intro Q deg hm
    cases Q with
    | nil => exact ⟨[], by rw [kahnTopo_nil, List.nil_append]⟩
    | cons c rest =>
      rw [kahnTopo_cons]
      obtain ⟨t, ht⟩ := processNeighbors_front nodes (adj c.id) rest deg
      have hm2 : (processNeighbors nodes (adj c.id) rest deg).1.length
          + degSum (processNeighbors nodes (adj c.id) rest deg).2 ≤ m := by
        have := processNeighbors_measure nodes (adj c.id) rest deg
        simp only [List.length_cons] at hm
        omega
      obtain ⟨s, hs⟩ := ih _ _ hm2
      refine ⟨t ++ s, ?_⟩
      rw [hs, ht]
      simp

/-- C3 (amended): the initially in-degree-zero nodes do appear first, in
input-list order — they form a prefix of the returned sequence; ties
arising later are resolved by the processed node's outgoing-edge order,
as the counterexample shows, so the output is deterministic but not the
input-list tie-breaking order in general. -/
theorem C3_initial_sources_lead (g : DAGElement) (hnd : (nodeIds g.nodes).Nodup) :
    ∃ s, get_topological_order g
      = (g.nodes.filter fun n => inCnt g.edges n.id == 0) ++ s := by
  rw [get_topological_order_eq_kahnOut g hnd]
  have hfilter : (g.nodes.filter fun n => remDeg g.edges [] n.id == 0)
      = g.nodes.filter fun n => inCnt g.edges n.id == 0 := by
    apply List.filter_congr
    intro n _
    rw [remDeg_nil_emitted]
  unfold kahnOut
  rw [hfilter]
  exact kahnTopo_front g.nodes _ _ _ _ (le_refl _)

/-- C3 amended-claim witness at a concrete graph. -/
theorem C3_witness :
    (nodeIds gW3.nodes).Nodup ∧
    ∃ s, get_topological_order gW3
      = (gW3.nodes.filter fun n => inCnt gW3.edges n.id == 0) ++ s :=
  ⟨by decide, C3_initial_sources_lead gW3 (by decide)⟩

/-! ## Claim C4: density -/

/-- Single node with a self-loop: a well-formed graph on which the code
reports density 1 although it has only one node. -/
def gW4 : DAGElement :=
  ⟨"dag", "t".data, none,
   [⟨"a", "A".data, none, none, none, none, none⟩], [⟨"a", "a", none⟩], none⟩

/-- C4 counterexample: the well-formed one-node graph with a self-loop
has density 1 (`edges / max(1, 1*0) = 1/1`), not the claimed 0. -/
theorem C4_counterexample :
    WFG gW4.nodes gW4.edges ∧ gW4.nodes.length = 1 ∧
    (get_dag_statistics gW4).density = 1 ∧
    ¬ ((get_dag_statistics gW4).density = 0) := by
  refine ⟨⟨by decide, by decide, by decide⟩, rfl, ?_, ?_⟩
  · norm_num [get_dag_statistics, gW4]
  · norm_num [get_dag_statistics, gW4]

theorem no_edges_of_loopfree_small (g : DAGElement) (hwf : WFG g.nodes g.edges)
    (hnl : ∀ e ∈ g.edges, e.from_node ≠ e.to_node)
    (hn1 : g.nodes.length ≤ 1) : g.edges = [] := by
  cases hedges : g.edges with
  | nil => rfl
  | cons e rest =>
    exfalso
    have hf := hwf.from_mem e (by rw [hedges]; simp)
    have ht := hwf.to_mem e (by rw [hedges]; simp)
    have hlen : (nodeIds g.nodes).length ≤ 1 := by
      have : (nodeIds g.nodes).length = g.nodes.length := List.length_map _ _
      omega
    have hpos : 0 < (nodeIds g.nodes).length := List.length_pos_of_mem hf
    have hone : (nodeIds g.nodes).length = 1 := by omega
    obtain ⟨x, hx⟩ := List.length_eq_one.mp hone
    rw [hx, List.mem_singleton] at hf ht
    exact hnl e (by rw [hedges]; simp) (hf.trans ht.symm)

theorem simple_edge_bound (g : DAGElement) (hwf : WFG g.nodes g.edges)
    (hnl : ∀ e ∈ g.edges, e.from_node ≠ e.to_node)
    (hnodup : (g.edges.map fun e => (e.from_node, e.to_node)).Nodup) :
    g.edges.length ≤ g.nodes.length * g.nodes.length - g.nodes.length := by
  have hlen : (g.edges.map fun e => (e.from_node, e.to_node)).length = g.edges.length :=
    List.length_map _ _
  have hsub : (g.edges.map fun e => (e.from_node, e.to_node)).toFinset
      ⊆ (nodeIds g.nodes).toFinset.offDiag := by
    intro p hp
    rw [List.mem_toFinset, List.mem_map] at hp
    obtain ⟨e, he, hpe⟩ := hp
    rw [Finset.mem_offDiag]
    rw [← hpe]
    exact ⟨by rw [List.mem_toFinset]; exact hwf.from_mem e he,
           by rw [List.mem_toFinset]; exact hwf.to_mem e he,
           hnl e he⟩
  have h1 : (g.edges.map fun e => (e.from_node, e.to_node)).toFinset.card
      = (g.edges.map fun e => (e.from_node, e.to_node)).length :=
    List.toFinset_card_of_nodup hnodup
  have h2 := Finset.card_le_card hsub
  have h3 := Finset.offDiag_card (nodeIds g.nodes).toFinset
  have h4 : (nodeIds g.nodes).toFinset.card ≤ g.nodes.length := by
    have h5 := (nodeIds g.nodes).toFinset_card_le
    have h6 : (nodeIds g.nodes).length = g.nodes.length := List.length_map _ _
    omega
  have hmono : ∀ (c n : Nat), c ≤ n → c * c - c ≤ n * n - n := by
    intro c n hcn
    cases c with
    | zero => simp
    | succ k =>
      have hn1 : 1 ≤ n := by omega
      have hmul : (k + 1) * k ≤ n * (n - 1) :=
        Nat.mul_le_mul hcn (by omega)
      have he1 : (k + 1) * (k + 1) = (k + 1) * k + (k + 1) := Nat.mul_succ (k + 1) k
      have he2 : n * n = n * (n - 1) + n := by
        have : n * n = n * ((n - 1) + 1) := by
          congr 1
          omega
        rw [this, Nat.mul_succ]
      omega
  have := hmono (nodeIds g.nodes).toFinset.card g.nodes.length h4
  omega

/-- C4 (amended): for a well-formed graph, the density field is 0 for 0
or 1 nodes provided the graph has no self-loop (a single node with a
self-loop yields density 1, as the counterexample shows); for n ≥ 2
nodes it is edge count / (n·(n−1)); and for simple graphs (no
self-loops, no repeated (source, target) pairs) it lies in [0, 1]. -/
theorem C4_density (g : DAGElement) (hwf : WFG g.nodes g.edges) :
    ((∀ e ∈ g.edges, e.from_node ≠ e.to_node) → g.nodes.length ≤ 1 →
      (get_dag_statistics g).density = 0) ∧
    (2 ≤ g.nodes.length →
      (get_dag_statistics g).density
        = (g.edges.length : ℚ) / ((g.nodes.length : ℚ) * ((g.nodes.length : ℚ) - 1))) ∧
    ((∀ e ∈ g.edges, e.from_node ≠ e.to_node) →
      ((g.edges.map fun e => (e.from_node, e.to_node)).Nodup) →
      0 ≤ (get_dag_statistics g).density ∧ (get_dag_statistics g).density ≤ 1) := by
  have hdens : (get_dag_statistics g).density
      = (g.edges.length : ℚ)
        / ((max 1 ((g.nodes.length : Int) * ((g.nodes.length : Int) - 1)) : Int) : ℚ) := rfl
  have hmax_pos : (0 : ℚ)
      < ((max 1 ((g.nodes.length : Int) * ((g.nodes.length : Int) - 1)) : Int) : ℚ) := by
    have h1 : (1 : Int) ≤ max 1 ((g.nodes.length : Int) * ((g.nodes.length : Int) - 1)) :=
      le_max_left _ _
    exact_mod_cast lt_of_lt_of_le Int.zero_lt_one h1
  refine ⟨?_, ?_, ?_⟩
  · intro hnl hn1
    have hE := no_edges_of_loopfree_small g hwf hnl hn1
    rw [hdens, hE]
    simp
  · intro hn2
    rw [hdens]
    have hmax : max 1 ((g.nodes.length : Int) * ((g.nodes.length : Int) - 1))
        = (g.nodes.length : Int) * ((g.nodes.length : Int) - 1) := by
      apply max_eq_right
      have h2 : (2 : Int) ≤ (g.nodes.length : Int) := by exact_mod_cast hn2
      nlinarith
    rw [hmax]
    push_cast
    ring_nf
  · intro hnl hnodup
    constructor
    · rw [hdens]
      apply div_nonneg
      · positivity
      · exact le_of_lt hmax_pos
    · by_cases hn1 : g.nodes.length ≤ 1
      · have hE := no_edges_of_loopfree_small g hwf hnl hn1
        rw [hdens, hE]
        simp
      · have hn2 : 2 ≤ g.nodes.length := by omega
        rw [hdens, div_le_one hmax_pos]
        have hmax : max 1 ((g.nodes.length : Int) * ((g.nodes.length : Int) - 1))
            = (g.nodes.length : Int) * ((g.nodes.length : Int) - 1) := by
          apply max_eq_right
          have h2 : (2 : Int) ≤ (g.nodes.length : Int) := by exact_mod_cast hn2
          nlinarith
        rw [hmax]
        have hbound := simple_edge_bound g hwf hnl hnodup
        have hle : g.nodes.length ≤ g.nodes.length * g.nodes.length :=
          Nat.le_mul_of_pos_left _ (by omega)
        have hcast : ((g.nodes.length * g.nodes.length - g.nodes.length : Nat) : ℚ)
            = (g.nodes.length : ℚ) * (g.nodes.length : ℚ) - (g.nodes.length : ℚ) := by
          rw [Nat.cast_sub hle]
          push_cast
          ring
        have hq : (g.edges.length : ℚ)
            ≤ ((g.nodes.length * g.nodes.length - g.nodes.length : Nat) : ℚ) := by
          exact_mod_cast hbound
        rw [hcast] at hq
        push_cast
        nlinarith [hq]

/-- Single isolated node (scenario D of the specification). -/
def gW5 : DAGElement :=
  ⟨"dag", "t".data, none,
   [⟨"n1", "N1".data, none, some "pending", none, none, none⟩], [], none⟩

/-- C4 witness: the amended density theorem at a concrete one-node
loop-free graph. -/
theorem C4_witness :
    WFG gW5.nodes gW5.edges ∧ (get_dag_statistics gW5).density = 0 ∧
    (0 ≤ (get_dag_statistics gW5).density ∧ (get_dag_statistics gW5).density ≤ 1) := by
  have hwf : WFG gW5.nodes gW5.edges :=
    ⟨by decide, fun e he => absurd he (List.not_mem_nil e),
      fun e he => absurd he (List.not_mem_nil e)⟩
  have hnl : ∀ e ∈ gW5.edges, e.from_node ≠ e.to_node :=
    fun e he => absurd he (List.not_mem_nil e)
  have hnodup : (gW5.edges.map fun e => (e.from_node, e.to_node)).Nodup := by
    simp [gW5]
  have h := C4_density gW5 hwf
  exact ⟨hwf, h.1 hnl (by decide), h.2.2 hnl hnodup⟩

/-! ## Claim C5: the single-isolated-node scenario -/

/-- C5 counterexample: hierarchical layout places the single isolated
node at `((0 − 1/2)·150, 0·100) = (−75, 0)`, not at the claimed (0, 0). -/
theorem C5_counterexample :
    ((optimize_dag_layout (fun _ => ((0 : ℚ), (0 : ℚ))) gW5 "hierarchical").nodes.map
        fun n => n.position) = [some ((-75 : ℚ), (0 : ℚ))] ∧
    ¬ (((optimize_dag_layout (fun _ => ((0 : ℚ), (0 : ℚ))) gW5 "hierarchical").nodes.map
        fun n => n.position) = [some ((0 : ℚ), (0 : ℚ))]) := by
  have heval : ((optimize_dag_layout (fun _ => ((0 : ℚ), (0 : ℚ))) gW5 "hierarchical").nodes.map
      fun n => n.position) = [some ((-75 : ℚ), (0 : ℚ))] := by
    simp [optimize_dag_layout, hierarchical_layout, buildInDeg, bfsLevels, bfsChildren,
      lookupDeg, lookupLevel, posIn, List.attach, List.attachWith, List.pmap, gW5]
    norm_num
  refine ⟨heval, ?_⟩
  rw [heval]
  intro h
  simp only [List.cons.injEq, Option.some.injEq, Prod.mk.injEq] at h
  norm_num at h

/-- C5 (amended): for a graph consisting of a single isolated node, the
hierarchical layout assigns the node level 0 (hence y = 0·100 = 0) and
horizontal position `(0 − 1/2)·150 = −75`, i.e. position (−75, 0) — not
(0, 0) as the scenario stated; the statistics report density 0 and that
node as the only source and only sink. -/
theorem C5_single_node (rnd : Nat → ℚ × ℚ) (g : DAGElement) (n : DAGNode)
    (hn : g.nodes = [n]) (he : g.edges = []) :
    (optimize_dag_layout rnd g "hierarchical").nodes
      = [{ n with position := some ((-75 : ℚ), (0 : ℚ)) }] ∧
    (get_dag_statistics g).density = 0 ∧
    (get_dag_statistics g).start_nodes = [n.id] ∧
    (get_dag_statistics g).end_nodes = [n.id] := by
  obtain ⟨ty, ti, de, ns, es, la⟩ := g
  simp only at hn he
  subst hn
  subst he
  refine ⟨?_, ?_, ?_, ?_⟩
  · simp [optimize_dag_layout, hierarchical_layout, buildInDeg, bfsLevels, bfsChildren,
      lookupDeg, lookupLevel, posIn, List.attach, List.attachWith, List.pmap]
    norm_num
  · norm_num [get_dag_statistics]
  · simp [get_dag_statistics, buildInDeg, lookupDeg]
  · simp [get_dag_statistics, buildOutDeg, lookupDeg]

/-- C5 witness: the amended single-node theorem at the concrete
scenario-D graph. -/
theorem C5_witness :
    gW5.nodes = [⟨"n1", "N1".data, none, some "pending", none, none, none⟩] ∧
    gW5.edges = [] ∧
    ((optimize_dag_layout (fun _ => ((0 : ℚ), (0 : ℚ))) gW5 "hierarchical").nodes
      = [{ (⟨"n1", "N1".data, none, some "pending", none, none, none⟩ : DAGNode) with
            position := some ((-75 : ℚ), (0 : ℚ)) }] ∧
    (get_dag_statistics gW5).density = 0 ∧
    (get_dag_statistics gW5).start_nodes = ["n1"] ∧
    (get_dag_statistics gW5).end_nodes = ["n1"]) :=
  ⟨rfl, rfl, C5_single_node (fun _ => ((0 : ℚ), (0 : ℚ))) gW5 _ rfl rfl⟩

/-! ## Claim C6: force layout on degenerate inputs -/

/-- C6 counterexample: with a single node the force layout assigns the
node its (random) initial position — the position field is set, not left
default/absent as the claim states. -/
theorem C6_counterexample :
    ((force_layout (fun _ => ((5 : ℚ), (7 : ℚ))) gW5).nodes.map fun n => n.position)
      = [some ((5 : ℚ), (7 : ℚ))] ∧
    ¬ (((force_layout (fun _ => ((5 : ℚ), (7 : ℚ))) gW5).nodes.map fun n => n.position)
      = [none]) := by
  have heval : ((force_layout (fun _ => ((5 : ℚ), (7 : ℚ))) gW5).nodes.map fun n => n.position)
      = [some ((5 : ℚ), (7 : ℚ))] := by
    simp [force_layout, assignInit, forceIter, forcePass, stepNode, forceOn, getPos, repulse,
      gW5, List.range_succ, List.range_zero]
  refine ⟨heval, ?_⟩
  rw [heval]
  simp

theorem forcePass_single (m : DAGNode) (p : ℚ × ℚ) (hp : m.position = some p) :
    forcePass [m] = [m] := by
  simp only [forcePass, List.length_cons, List.length_nil, List.range_succ, List.range_zero,
    List.nil_append, List.foldl_cons, List.foldl_nil, stepNode, List.getElem?_cons_zero,
    forceOn, getPos, hp, Option.getD_some, beq_self_eq_true, if_true, List.foldl_cons,
    List.foldl_nil, List.set]
  have : (p.1 + (0 : ℚ) * (1 / 10), p.2 + (0 : ℚ) * (1 / 10)) = p := by
    simp
  rw [this]
  cases m with
  | mk id name description status timestamp result position =>
    simp only at hp
    rw [hp]

theorem forceIter_single : ∀ (k : Nat) (m : DAGNode) (p : ℚ × ℚ),
    m.position = some p → forceIter k [m] = [m] := by
  intro k
  induction k with
  | zero => intro m p _; rfl
  | succ j ih =>
    intro m p hp
    show forceIter j (forcePass [m]) = [m]
    rw [forcePass_single m p hp]
    exact ih m p hp

/-- C6 (amended): the force layout is total (the zero-distance guard
makes a coincident pair contribute no force, so no division by zero
occurs); with zero nodes it returns the graph unchanged; with one node
it does not raise, but it does set the node's position to its random
initial value (the iterations apply zero net force), rather than leaving
the position default/absent as the claim stated. -/
theorem C6_force_layout_total (rnd : Nat → ℚ × ℚ) (g : DAGElement) :
    (g.nodes = [] → force_layout rnd g = g) ∧
    (∀ n, g.nodes = [n] →
      (force_layout rnd g).nodes = [{ n with position := some (rnd 0) }]) ∧
    (∀ p : ℚ × ℚ, repulse p p = (0, 0)) := by
  refine ⟨?_, ?_, ?_⟩
  · intro hnil
    obtain ⟨ty, ti, de, ns, es, la⟩ := g
    simp only at hnil
    subst hnil
    rfl
  · intro n hn
    have hstep : assignInit rnd 0 g.nodes = [{ n with position := some (rnd 0) }] := by
      rw [hn]
      rfl
    show forceIter 5 (assignInit rnd 0 g.nodes) = _
    rw [hstep]
    exact forceIter_single 5 _ (rnd 0) rfl
  · intro p
    simp [repulse]

/-- C6 witness: the amended theorem at the concrete one-node graph. -/
theorem C6_witness :
    gW5.nodes = [⟨"n1", "N1".data, none, some "pending", none, none, none⟩] ∧
    (force_layout (fun _ => ((5 : ℚ), (7 : ℚ))) gW5).nodes
      = [{ (⟨"n1", "N1".data, none, some "pending", none, none, none⟩ : DAGNode) with
            position := some ((5 : ℚ), (7 : ℚ)) }] ∧
    repulse ((1 : ℚ), (2 : ℚ)) ((1 : ℚ), (2 : ℚ)) = (0, 0) :=
  ⟨rfl,
   (C6_force_layout_total (fun _ => ((5 : ℚ), (7 : ℚ))) gW5).2.1 _ rfl,
   (C6_force_layout_total (fun _ => ((5 : ℚ), (7 : ℚ))) gW5).2.2 ((1 : ℚ), (2 : ℚ))⟩

/-! ## Claim C8: layout only touches positions -/

/-- Erase the only mutable field; two nodes agree after `clearPos` iff
they agree on id, name, description, status, timestamp and result. -/
def clearPos (n : DAGNode) : DAGNode := { n with position := none }

theorem set_map_clearPos : ∀ (ns : List DAGNode) (i : Nat) (me x : DAGNode),
    ns[i]? = some me → clearPos x = clearPos me →
    (ns.set i x).map clearPos = ns.map clearPos := by
  intro ns
  induction ns with
  | nil =>
    intro i me x h _
    simp at h
  | cons a rest ih =>
    intro i me x h hx
    cases i with
    | zero =>
      simp only [List.getElem?_cons_zero, Option.some.injEq] at h
      subst h
      simp only [List.set_cons_zero, List.map_cons, hx]
    | succ j =>
      simp only [List.getElem?_cons_succ] at h
      simp only [List.set_cons_succ, List.map_cons, ih j me x h hx]

theorem stepNode_clearPos (ns : List DAGNode) (i : Nat) :
    (stepNode ns i).map clearPos = ns.map clearPos := by
  unfold stepNode
  cases h : ns[i]? with
  | none => rfl
  | some me =>
    exact set_map_clearPos ns i me _ h rfl

theorem foldl_stepNode_clearPos : ∀ (l : List Nat) (ns : List DAGNode),
    (l.foldl stepNode ns).map clearPos = ns.map clearPos := by
  intro l
  induction l with
  | nil => intro ns; rfl
  | cons i rest ih =>
    intro ns
    simp only [List.foldl_cons]
    rw [ih (stepNode ns i), stepNode_clearPos]

theorem forcePass_clearPos (ns : List DAGNode) :
    (forcePass ns).map clearPos = ns.map clearPos :=
  foldl_stepNode_clearPos _ ns

theorem forceIter_clearPos : ∀ (k : Nat) (ns : List DAGNode),
    (forceIter k ns).map clearPos = ns.map clearPos := by
  intro k
  induction k with
  | zero => intro ns; rfl
  | succ j ih =>
    intro ns
    show (forceIter j (forcePass ns)).map clearPos = ns.map clearPos
    rw [ih (forcePass ns), forcePass_clearPos]

theorem assignInit_clearPos (rnd : Nat → ℚ × ℚ) : ∀ (i : Nat) (ns : List DAGNode),
    (assignInit rnd i ns).map clearPos = ns.map clearPos := by
  intro i ns
  induction ns generalizing i with
  | nil => rfl
  | cons a rest ih =>
    simp only [assignInit, List.map_cons, ih (i + 1)]
    rfl

theorem assignCirc_clearPos (radius : ℚ) (nn : Nat) : ∀ (i : Nat) (ns : List DAGNode),
    (assignCirc radius nn i ns).map clearPos = ns.map clearPos := by
  intro i ns
  induction ns generalizing i with
  | nil => rfl
  | cons a rest ih =>
    simp only [assignCirc, List.map_cons, ih (i + 1)]
    rfl

theorem hierarchical_clearPos (g : DAGElement) :
    (hierarchical_layout g).nodes.map clearPos = g.nodes.map clearPos := by
  show (g.nodes.map _).map clearPos = g.nodes.map clearPos
  rw [List.map_map]
  apply List.map_congr_left
  intro n _
  show clearPos (match lookupLevel _ n.id with
    | some lv => _
    | none => n) = clearPos n
  cases lookupLevel _ n.id with
  | some lv => rfl
  | none => rfl

/-- C8: every layout policy returns the graph with all fields except the
node positions unchanged (same edges, same node count/order, same node
ids, names, statuses and other fields), and an unknown policy name is a
complete no-op. -/
theorem C8_layout_frame (rnd : Nat → ℚ × ℚ) (g : DAGElement) (layout_type : String) :
    ((optimize_dag_layout rnd g layout_type).type = g.type ∧
     (optimize_dag_layout rnd g layout_type).title = g.title ∧
     (optimize_dag_layout rnd g layout_type).description = g.description ∧
     (optimize_dag_layout rnd g layout_type).edges = g.edges ∧
     (optimize_dag_layout rnd g layout_type).layout = g.layout ∧
     (optimize_dag_layout rnd g layout_type).nodes.map clearPos = g.nodes.map clearPos) ∧
    (layout_type ∉ (["hierarchical", "circular", "force"] : List String) →
      optimize_dag_layout rnd g layout_type = g) := by
  unfold optimize_dag_layout
  by_cases h1 : layout_type = "hierarchical"
  · rw [if_pos h1]
    refine ⟨⟨rfl, rfl, rfl, rfl, rfl, hierarchical_clearPos g⟩, ?_⟩
    intro hmem
    exact absurd (by simp [h1]) hmem
  · rw [if_neg h1]
    by_cases h2 : layout_type = "circular"
    · rw [if_pos h2]
      refine ⟨⟨rfl, rfl, rfl, rfl, rfl, assignCirc_clearPos _ _ 0 g.nodes⟩, ?_⟩
      intro hmem
      exact absurd (by simp [h2]) hmem
    · rw [if_neg h2]
      by_cases h3 : layout_type = "force"
      · rw [if_pos h3]
        unfold force_layout
        refine ⟨⟨rfl, rfl, rfl, rfl, rfl, ?_⟩, ?_⟩
        · dsimp only
          rw [forceIter_clearPos, assignInit_clearPos]
        · intro hmem
          exact absurd (by simp [h3]) hmem
      · rw [if_neg h3]
        exact ⟨⟨rfl, rfl, rfl, rfl, rfl, rfl⟩, fun _ => rfl⟩

/-- C8 witness: the frame theorem at concrete inputs — a known policy
keeps everything but positions, an unknown policy is the identity. -/
theorem C8_witness :
    (optimize_dag_layout (fun _ => ((5 : ℚ), (7 : ℚ))) gW5 "circular").edges = gW5.edges ∧
    (optimize_dag_layout (fun _ => ((5 : ℚ), (7 : ℚ))) gW5 "circular").nodes.map clearPos
      = gW5.nodes.map clearPos ∧
    optimize_dag_layout (fun _ => ((5 : ℚ), (7 : ℚ))) gW5 "spiral" = gW5 :=
  ⟨(C8_layout_frame (fun _ => ((5 : ℚ), (7 : ℚ))) gW5 "circular").1.2.2.2.1,
   (C8_layout_frame (fun _ => ((5 : ℚ), (7 : ℚ))) gW5 "circular").1.2.2.2.2.2,
   (C8_layout_frame (fun _ => ((5 : ℚ), (7 : ℚ))) gW5 "spiral").2 (by decide)⟩

/-! ## Claim C9: escaping in the rendered diagram -/

theorem replace1_append (pat : Char) (rep : List Char) :
    ∀ (a b : List Char), replace1 pat rep (a ++ b) = replace1 pat rep a ++ replace1 pat rep b := by
  intro a b
  induction a with
  | nil => rfl
  | cons x rest ih =>
    simp only [List.cons_append, replace1, List.append_eq]
    by_cases h : x = pat
    · rw [if_pos h, if_pos h, ih, List.append_assoc]
    · rw [if_neg h, if_neg h, ih, List.cons_append]

theorem escape_foldl_append : ∀ (cs : List Char) (a b : List Char),
    cs.foldl (fun acc c => replace1 c ['\\', c] acc) (a ++ b)
      = cs.foldl (fun acc c => replace1 c ['\\', c] acc) a
        ++ cs.foldl (fun acc c => replace1 c ['\\', c] acc) b := by
  intro cs
  induction cs with
  | nil => intro a b; rfl
  | cons c rest ih =>
    intro a b
    simp only [List.foldl_cons]
    rw [replace1_append, ih]

/-- `_escape_mermaid_text` acts independently on each character of its
input (every replacement has a single-character pattern). -/
theorem escape_mermaid_text_append (a b : List Char) :
    escape_mermaid_text (a ++ b) = escape_mermaid_text a ++ escape_mermaid_text b :=
  escape_foldl_append special_chars a b

/-- Every special character is rendered as a block ending in the escape
marker followed by the character itself. -/
theorem escape_special_block (c : Char) (hc : c ∈ special_chars) :
    ∃ w, escape_mermaid_text [c] = w ++ ['\\', c] := by
  simp only [special_chars, List.mem_cons, List.not_mem_nil, or_false] at hc
  rcases hc with rfl | rfl | rfl | rfl | rfl | rfl | rfl | rfl | rfl | rfl | rfl | rfl | rfl | rfl | rfl | rfl
  · exact ⟨['\\'], by rfl⟩
  · exact ⟨['\\'], by rfl⟩
  · exact ⟨[], by rfl⟩
  · exact ⟨[], by rfl⟩
  · exact ⟨[], by rfl⟩
  · exact ⟨[], by rfl⟩
  · exact ⟨[], by rfl⟩
  · exact ⟨[], by rfl⟩
  · exact ⟨[], by rfl⟩
  · exact ⟨[], by rfl⟩
  · exact ⟨[], by rfl⟩
  · exact ⟨[], by rfl⟩
  · exact ⟨[], by rfl⟩
  · exact ⟨[], by rfl⟩
  · exact ⟨[], by rfl⟩
  · exact ⟨[], by rfl⟩

theorem joinNL_extract : ∀ (l : List (List Char)) (a : List Char), a ∈ l →
    ∃ p q, joinNL l = p ++ a ++ q := by
  intro l
  induction l with
  | nil =>
    intro a ha
    cases ha
  | cons b rest ih =>
    intro a ha
    rcases List.mem_cons.mp ha with rfl | ha
    · cases rest with
      | nil => exact ⟨[], [], by simp [joinNL]⟩
      | cons r rs => exact ⟨[], '\n' :: joinNL (r :: rs), by simp [joinNL]⟩
    · have hne : rest ≠ [] := fun hh => by rw [hh] at ha; cases ha
      obtain ⟨p, q, hpq⟩ := ih a ha
      cases rest with
      | nil => exact absurd rfl hne
      | cons r rs =>
        refine ⟨b ++ '\n' :: p, q, ?_⟩
        show b ++ '\n' :: joinNL (r :: rs) = (b ++ '\n' :: p) ++ a ++ q
        rw [hpq]
        simp

/-- The rendered diagram contains the escaped display name of each node
as a contiguous substring (inside that node's directive line). -/
theorem mermaid_contains_escaped (g : DAGElement) (n : DAGNode) (hn : n ∈ g.nodes) :
    ∃ p q, convert_to_mermaid g = p ++ escape_mermaid_text n.name ++ q := by
  unfold convert_to_mermaid
  have hline : mermaidNodeLine n ∈
      (g.nodes.map mermaidNodeLine ++ g.edges.map mermaidEdgeLine) :=
    List.mem_append_left _ (List.mem_map_of_mem _ hn)
  have hmem : mermaidNodeLine n ∈
      ((if g.nodes.length ≤ 10 ∧ g.edges.length ≤ 15 then "flowchart TD".data
        else "graph TD".data)
        :: (g.nodes.map mermaidNodeLine ++ g.edges.map mermaidEdgeLine)) :=
    List.mem_cons_of_mem _ hline
  obtain ⟨p, q, hpq⟩ := joinNL_extract _ _ hmem
  have hshape : mermaidNodeLine n
      = ("    ".data ++ n.id.data ++ ['[', '\"']) ++ escape_mermaid_text n.name
        ++ ((match n.description with
            | some d => if d = [] then [] else "\\n\\n*".data ++ d ++ ['*']
            | none => []) ++ ('\"' :: ']' :: get_node_status_style n.status)) := by
    unfold mermaidNodeLine
    simp [List.append_assoc]
  refine ⟨p ++ ("    ".data ++ n.id.data ++ ['[', '\"']),
    (match n.description with
      | some d => if d = [] then [] else "\\n\\n*".data ++ d ++ ['*']
      | none => []) ++ ('\"' :: ']' :: get_node_status_style n.status) ++ q, ?_⟩
  rw [hpq, hshape]
  simp [List.append_assoc]

/-- C9: every occurrence of a special character in a node's display name
appears in the rendered diagram immediately preceded by the escape
marker: the escaped name occurs verbatim in the diagram text, escaping
is per-character, and the block a special character is escaped to ends
in backslash-then-character. -/
theorem C9_escaped_occurrences (g : DAGElement) (n : DAGNode) (hn : n ∈ g.nodes)
    (c : Char) (hc : c ∈ special_chars) (u v : List Char) (hsplit : n.name = u ++ c :: v) :
    escape_mermaid_text n.name
      = escape_mermaid_text u ++ escape_mermaid_text [c] ++ escape_mermaid_text v ∧
    (∃ w, escape_mermaid_text [c] = w ++ ['\\', c]) ∧
    (∃ p q, convert_to_mermaid g = p ++ escape_mermaid_text n.name ++ q) := by
  refine ⟨?_, escape_special_block c hc, mermaid_contains_escaped g n hn⟩
  rw [hsplit, show u ++ c :: v = u ++ [c] ++ v by simp,
    escape_mermaid_text_append, escape_mermaid_text_append]

/-- Concrete node with a dot in its display name. -/
def nW6 : DAGNode := ⟨"x", "a.b".data, none, none, none, none, none⟩

/-- Concrete graph whose single node has a dot in its display name. -/
def gW6 : DAGElement := ⟨"dag", "t".data, none, [nW6], [], none⟩

/-- C9 witness: the claim theorem at a concrete node name `a.b`. -/
theorem C9_witness :
    nW6 ∈ gW6.nodes ∧ ('.' ∈ special_chars) ∧
    (escape_mermaid_text nW6.name
        = escape_mermaid_text ['a'] ++ escape_mermaid_text ['.']
          ++ escape_mermaid_text ['b'] ∧
      (∃ w, escape_mermaid_text ['.'] = w ++ ['\\', '.']) ∧
      (∃ p q, convert_to_mermaid gW6
        = p ++ escape_mermaid_text nW6.name ++ q)) :=
  ⟨List.mem_singleton.mpr rfl, by decide,
   C9_escaped_occurrences gW6 nW6 (List.mem_singleton.mpr rfl) '.' (by decide)
     ['a'] ['b'] (by decide)⟩

/-! ## Claim C10: degree averages -/

theorem sum_map_add {α : Type} (l : List α) (f h : α → Int) :
    (l.map fun n => f n + h n).sum = (l.map f).sum + (l.map h).sum := by
  induction l with
  | nil => simp
  | cons a rest ih =>
    simp only [List.map_cons, List.sum_cons, ih]
    ring

theorem sum_indicator_zero (N : List String) (x : String) (hx : x ∉ N) :
    ((N.map fun v => if x == v then (1 : Int) else 0).sum) = 0 := by
  induction N with
  | nil => rfl
  | cons y rest ih =>
    have hxy : (x == y) = false := by
      simp only [beq_eq_false_iff_ne, ne_eq]
      intro hh
      exact hx (by simp [hh])
    simp only [List.map_cons, List.sum_cons, hxy, if_neg (by simp : ¬ (false = true))]
    rw [ih fun hh => hx (List.mem_cons_of_mem _ hh)]
    ring

theorem sum_indicator_one (N : List String) (x : String) (hnd : N.Nodup) (hx : x ∈ N) :
    ((N.map fun v => if x == v then (1 : Int) else 0).sum) = 1 := by
  induction N with
  | nil => cases hx
  | cons y rest ih =>
    rw [List.nodup_cons] at hnd
    by_cases hxy : x = y
    · have hb : (x == y) = true := by simp [hxy]
      have hxr : x ∉ rest := by
        rw [hxy]
        exact hnd.1
      simp only [List.map_cons, List.sum_cons, hb, if_true, if_pos rfl]
      rw [sum_indicator_zero rest x hxr]
      ring
    · have hb : (x == y) = false := by
        simp only [beq_eq_false_iff_ne, ne_eq]
        exact hxy
      have hxr : x ∈ rest := by
        rcases List.mem_cons.mp hx with rfl | h
        · exact absurd rfl hxy
        · exact h
      simp only [List.map_cons, List.sum_cons, hb, if_neg (by simp : ¬ (false = true))]
      rw [ih hnd.2 hxr]
      ring

theorem sum_counts (N : List String) (hnd : N.Nodup) :
    ∀ (l : List String), (∀ x ∈ l, x ∈ N) →
    ((N.map fun v => (l.count v : Int)).sum) = (l.length : Int) := by
  intro l
  induction l with
  | nil => intro _; simp
  | cons x rest ih =>
    intro hsub
    have hsplit : (N.map fun v => ((x :: rest).count v : Int))
        = N.map fun v => (rest.count v : Int) + (if x == v then (1 : Int) else 0) := by
      apply List.map_congr_left
      intro v _
      rw [List.count_cons]
      by_cases h : (x == v) = true
      · rw [h]
        simp
      · have h2 : (x == v) = false := by simpa using h
        rw [h2]
        simp
    rw [hsplit]
    have := sum_map_add N (fun v => (rest.count v : Int)) fun v => if x == v then (1 : Int) else 0
    have hsum2 : ((N.map fun v => (rest.count v : Int)).sum) = (rest.length : Int) :=
      ih fun y hy => hsub y (List.mem_cons_of_mem _ hy)
    have hone := sum_indicator_one N x hnd (hsub x (by simp))
    show ((N.map fun v => (rest.count v : Int) + if x == v then (1 : Int) else 0).sum)
      = ((x :: rest).length : Int)
    rw [this, hsum2, hone]
    simp only [List.length_cons]
    push_cast
    ring

theorem count_map_eq_filter_length (f : DAGEdge → String) (v : String) :
    ∀ (l : List DAGEdge), ((l.map f).count v : Int) = ((l.filter fun e => f e == v).length : Int) := by
  intro l
  induction l with
  | nil => rfl
  | cons e rest ih =>
    simp only [List.map_cons, List.count_cons, List.filter_cons]
    by_cases h : (f e == v) = true
    · rw [h]
      simp only [if_pos rfl, List.length_cons, if_true]
      push_cast at ih ⊢
      omega
    · have h2 : (f e == v) = false := by simpa using h
      rw [h2]
      simp only [if_neg (by simp : ¬ (false = true)), add_zero]
      exact ih

theorem sumVals_mapOfI (nodes : List DAGNode) (f : String → Int) :
    sumVals (mapOfI nodes f) = (nodes.map fun n => f n.id).sum := by
  unfold sumVals mapOfI
  rw [List.map_map]
  rfl

theorem sumVals_buildInDeg (g : DAGElement) (hwf : WFG g.nodes g.edges) :
    sumVals (buildInDeg g.nodes g.edges) = (g.edges.length : Int) := by
  rw [buildInDeg_canon g.nodes hwf.nodup g.edges, sumVals_mapOfI]
  have h1 : (g.nodes.map fun n => inCnt g.edges n.id)
      = (nodeIds g.nodes).map fun v => ((g.edges.map fun e => e.to_node).count v : Int) := by
    unfold nodeIds
    rw [List.map_map]
    apply List.map_congr_left
    intro n _
    show inCnt g.edges n.id = ((g.edges.map fun e => e.to_node).count n.id : Int)
    rw [count_map_eq_filter_length]
    rfl
  rw [h1]
  have h2 : (g.edges.map fun e => e.to_node).length = g.edges.length := List.length_map _ _
  rw [← h2]
  apply sum_counts (nodeIds g.nodes) hwf.nodup
  intro x hx
  simp only [List.mem_map] at hx
  obtain ⟨e, he, hex⟩ := hx
  rw [← hex]
  exact hwf.to_mem e he

theorem sumVals_buildOutDeg (g : DAGElement) (hwf : WFG g.nodes g.edges) :
    sumVals (buildOutDeg g.nodes g.edges) = (g.edges.length : Int) := by
  rw [buildOutDeg_canon g.nodes hwf.nodup g.edges, sumVals_mapOfI]
  have h1 : (g.nodes.map fun n => ((g.edges.filter fun e => e.from_node == n.id).length : Int))
      = (nodeIds g.nodes).map fun v => ((g.edges.map fun e => e.from_node).count v : Int) := by
    unfold nodeIds
    rw [List.map_map]
    apply List.map_congr_left
    intro n _
    show ((g.edges.filter fun e => e.from_node == n.id).length : Int)
      = ((g.edges.map fun e => e.from_node).count n.id : Int)
    rw [count_map_eq_filter_length]
  rw [h1]
  have h2 : (g.edges.map fun e => e.from_node).length = g.edges.length := List.length_map _ _
  rw [← h2]
  apply sum_counts (nodeIds g.nodes) hwf.nodup
  intro x hx
  simp only [List.mem_map] at hx
  obtain ⟨e, he, hex⟩ := hx
  rw [← hex]
  exact hwf.from_mem e he

/-- C10: in every well-formed graph the mean in-degree and mean
out-degree both equal edge count / node count (each edge contributes one
unit to each total), and both are 0 for the empty graph. -/
theorem C10_avg_degrees (g : DAGElement) (hwf : WFG g.nodes g.edges) :
    (get_dag_statistics g).avg_in_degree = (g.edges.length : ℚ) / (g.nodes.length : ℚ) ∧
    (get_dag_statistics g).avg_out_degree = (g.edges.length : ℚ) / (g.nodes.length : ℚ) ∧
    (g.nodes = [] →
      (get_dag_statistics g).avg_in_degree = 0 ∧ (get_dag_statistics g).avg_out_degree = 0) := by
  have hin : (get_dag_statistics g).avg_in_degree
      = if g.nodes = [] then 0
        else ((sumVals (buildInDeg g.nodes g.edges) : Int) : ℚ) / (g.nodes.length : ℚ) := rfl
  have hout : (get_dag_statistics g).avg_out_degree
      = if g.nodes = [] then 0
        else ((sumVals (buildOutDeg g.nodes g.edges) : Int) : ℚ) / (g.nodes.length : ℚ) := rfl
  by_cases hnil : g.nodes = []
  · have hE : g.edges = [] := by
      cases hedges : g.edges with
      | nil => rfl
      | cons e rest =>
        exfalso
        have := hwf.to_mem e (by rw [hedges]; simp)
        rw [hnil] at this
        cases this
    rw [hin, hout, if_pos hnil, if_pos hnil]
    refine ⟨?_, ?_, fun _ => ⟨rfl, rfl⟩⟩ <;>
      rw [hE] <;> simp
  · rw [hin, hout, if_neg hnil, if_neg hnil,
      sumVals_buildInDeg g hwf, sumVals_buildOutDeg g hwf]
    push_cast
    exact ⟨rfl, rfl, fun hh => absurd hh hnil⟩

/-- C10 witness: the degree-average theorem at a concrete graph with two
nodes and one edge (both means are 1/2). -/
theorem C10_witness :
    WFG gW3.nodes gW3.edges ∧
    ((get_dag_statistics gW3).avg_in_degree = (gW3.edges.length : ℚ) / (gW3.nodes.length : ℚ) ∧
     (get_dag_statistics gW3).avg_out_degree = (gW3.edges.length : ℚ) / (gW3.nodes.length : ℚ) ∧
     (gW3.nodes = [] →
       (get_dag_statistics gW3).avg_in_degree = 0 ∧
       (get_dag_statistics gW3).avg_out_degree = 0)) :=
  have hwf : WFG gW3.nodes gW3.edges := ⟨by decide, by decide, by decide⟩
  ⟨hwf, C10_avg_degrees gW3 hwf⟩

/-! ## Claim C7: validation verdict and error vocabulary -/

/-- The empty DAG element. -/
def gEmpty : DAGElement := ⟨"dag", "t".data, none, [], [], none⟩

/-- C7 counterexample: the empty graph is rejected with a fourth kind of
error message ("the DAG must contain at least one node"), although the
claim says the empty graph is absorbed and validates as true, with only
three kinds of failure reasons. -/
theorem C7_counterexample :
    validate_dag_config gEmpty = (false, ["DAG必须包含至少一个节点"]) ∧
    (validate_dag_config gEmpty).1 ≠ true := by
  constructor
  · decide
  · decide

theorem edgeErrors_none_of_wf (ids : List String) :
    ∀ (edges : List DAGEdge),
    (∀ e ∈ edges, e.from_node ∈ ids ∧ e.to_node ∈ ids) →
    edgeErrors ids edges = none := by
  intro edges
  induction edges with
  | nil => intro _; rfl
  | cons e rest ih =>
    intro hall
    have he := hall e (by simp)
    simp only [edgeErrors, if_neg (not_not_intro he.1), if_neg (not_not_intro he.2)]
    exact ih fun e2 h2 => hall e2 (List.mem_cons_of_mem _ h2)

theorem edgeErrors_shape (ids : List String) :
    ∀ (edges : List DAGEdge) (msg : String), edgeErrors ids edges = some msg →
    (∃ x, msg = "边引用了不存在的起始节点: " ++ x) ∨
    (∃ x, msg = "边引用了不存在的目标节点: " ++ x) := by
  intro edges
  induction edges with
  | nil =>
    intro msg h
    cases h
  | cons e rest ih =>
    intro msg h
    simp only [edgeErrors] at h
    by_cases h1 : e.from_node ∉ ids
    · rw [if_pos h1] at h
      exact Or.inl ⟨e.from_node, (Option.some.inj h).symm⟩
    · rw [if_neg h1] at h
      by_cases h2 : e.to_node ∉ ids
      · rw [if_pos h2] at h
        exact Or.inr ⟨e.to_node, (Option.some.inj h).symm⟩
      · rw [if_neg h2] at h
        exact ih msg h

/-- C7 (amended): `validate_dag_config` returns a boolean verdict; a
well-formed, nonempty, acyclic graph validates as true with no recorded
errors; and whenever the verdict is false exactly one error is recorded,
of one of four kinds — empty node list (the degenerate input is rejected,
not absorbed), non-unique node ids, an edge endpoint referencing an
unknown node id, or a detected cycle. -/
theorem C7_validate (g : DAGElement) :
    (WFG g.nodes g.edges → g.nodes ≠ [] → Acyclic g.edges →
      validate_dag_config g = (true, [])) ∧
    (∀ errs, validate_dag_config g = (false, errs) →
      errs.length = 1 ∧
      (errs = ["DAG必须包含至少一个节点"] ∨ errs = ["节点ID必须唯一"] ∨
       (∃ x, errs = ["边引用了不存在的起始节点: " ++ x]) ∨
       (∃ x, errs = ["边引用了不存在的目标节点: " ++ x]) ∨
       errs = ["DAG不能包含环"])) := by
  constructor
  · intro hwf hne hacyc
    have hlen : (get_topological_order g).length = g.nodes.length :=
      (topo_correct g hwf hacyc).1.length_eq
    have hcheck : check_acyclic g.nodes g.edges = true := by
      rw [check_acyclic_eq_length g hwf.nodup]
      simp [hlen]
    have herr : edgeErrors (nodeIds g.nodes) g.edges = none :=
      edgeErrors_none_of_wf _ _ fun e he => ⟨hwf.from_mem e he, hwf.to_mem e he⟩
    unfold validate_dag_config
    rw [if_neg hne, if_neg (not_not_intro hwf.nodup), herr, if_pos hcheck]
  · intro errs hval
    unfold validate_dag_config at hval
    by_cases h1 : g.nodes = []
    · rw [if_pos h1] at hval
      have herrs : errs = ["DAG必须包含至少一个节点"] := by
        have := congrArg Prod.snd hval
        simpa using this.symm
      subst herrs
      exact ⟨rfl, Or.inl rfl⟩
    · rw [if_neg h1] at hval
      by_cases h2 : ¬ (nodeIds g.nodes).Nodup
      · rw [if_pos h2] at hval
        have herrs : errs = ["节点ID必须唯一"] := by
          have := congrArg Prod.snd hval
          simpa using this.symm
        subst herrs
        exact ⟨rfl, Or.inr (Or.inl rfl)⟩
      · rw [if_neg h2] at hval
        cases herr : edgeErrors (nodeIds g.nodes) g.edges with
        | some msg =>
          rw [herr] at hval
          have herrs : errs = [msg] := by
            have := congrArg Prod.snd hval
            simpa using this.symm
          subst herrs
          rcases edgeErrors_shape _ _ msg herr with ⟨x, hx⟩ | ⟨x, hx⟩
          · exact ⟨rfl, Or.inr (Or.inr (Or.inl ⟨x, by rw [hx]⟩))⟩
          · exact ⟨rfl, Or.inr (Or.inr (Or.inr (Or.inl ⟨x, by rw [hx]⟩)))⟩
        | none =>
          rw [herr] at hval
          by_cases h3 : check_acyclic g.nodes g.edges = true
          · rw [if_pos h3] at hval
            have := congrArg Prod.fst hval
            simp at this
          · rw [if_neg h3] at hval
            have herrs : errs = ["DAG不能包含环"] := by
              have := congrArg Prod.snd hval
              simpa using this.symm
            subst herrs
            exact ⟨rfl, Or.inr (Or.inr (Or.inr (Or.inr rfl)))⟩

/-- C7 witness: validation succeeds on a concrete well-formed nonempty
acyclic graph. -/
theorem C7_witness :
    WFG gW5.nodes gW5.edges ∧ gW5.nodes ≠ [] ∧ Acyclic gW5.edges ∧
    validate_dag_config gW5 = (true, []) :=
  have hwf : WFG gW5.nodes gW5.edges :=
    ⟨by decide, fun e he => absurd he (List.not_mem_nil e),
      fun e he => absurd he (List.not_mem_nil e)⟩
  have hacyc : Acyclic gW5.edges := acyclic_of_no_edges _ rfl
  ⟨hwf, by decide, hacyc, (C7_validate gW5).1 hwf (by decide) hacyc⟩

end DagHandler
